import Mathlib

/-!
Shallow embedding of `src/index.ts` (`SetKeyedMap`), a Map-like container whose
keys are JavaScript `Set`s compared by element membership rather than by object
identity.

Modelling conventions:
* A JavaScript `Set` object is modelled by `KeyObj`: a numeric `id` standing for
  the object's reference identity, plus `elems`, its elements in insertion
  order.  A real `Set` never contains duplicate elements, so every key object
  that can exist at run time satisfies `elems.Nodup`; this appears as a
  hypothesis on caller-supplied keys and as an invariant for stored keys.
* Reference equality (`===`, `Map` key identity, `Array.prototype.includes` on
  objects) is modelled by equality of `KeyObj` values.  Canonical key objects
  allocated by the container receive ids from the `nextId` counter, so distinct
  internal objects have distinct ids; a caller-supplied object that is not one
  of the container's internal objects is expressed by `FreshKey`.
* The inner `Map`s (`valueMap`, `subkeyToKeys`) are insertion-ordered
  association lists, matching JavaScript `Map` iteration-order semantics:
  `set` on a present key updates in place, `set` on an absent key appends,
  `delete` preserves the order of the remaining entries.
* Allocation of the fresh copies produced by `keys()` / `entries()`
  (`createUserFacingKey`) is modelled by handing the copies ids from
  `nextId` upward; since every stored id is `< nextId`, a copy is never the
  internal canonical object, exactly as a freshly allocated `new Set` is not.
* Callbacks (`filter`, `mapOver`, `reduce`, `reduceRight`) are modelled as pure
  functions of the value and the (copied) key; the `map` argument that the
  source also passes to each callback carries no additional information in a
  pure setting.
-/

set_option maxHeartbeats 1000000
set_option linter.unusedSectionVars false
set_option linter.unusedVariables false

/-- A JavaScript `Set` object: `id` models reference identity, `elems` the
elements in insertion order (a real `Set` has no duplicate elements). -/
structure KeyObj (α : Type) where
  id : Nat
  elems : List α
deriving DecidableEq, Repr

/-- State of a `SetKeyedMap` (src/index.ts lines 1-5): `entries` is the private
`valueMap` (insertion-ordered, keyed by object identity), `index` is the private
`subkeyToKeys` map from an element to the canonical keys containing it, and
`nextId` is the allocator counter for fresh object ids. -/
structure SKM (α β : Type) where
  entries : List (KeyObj α × β)
  index : List (α × List (KeyObj α))
  nextId : Nat
deriving Repr

namespace SKM

variable {α β γ δ : Type} [DecidableEq α]

/-- `new SetKeyedMap()`: both private maps empty. -/
def empty : SKM α β := ⟨[], [], 0⟩

/-- `get size()` (lines 8-10): number of entries in `valueMap`. -/
def size (C : SKM α β) : Nat := C.entries.length

/-- `clear()` (lines 13-16): clears both `valueMap` and `subkeyToKeys`. -/
def clear (C : SKM α β) : SKM α β := ⟨[], [], C.nextId⟩

/-- `Map.prototype.has` on `valueMap`: key-object identity. -/
def valueMapHas (C : SKM α β) (key : KeyObj α) : Bool :=
  C.entries.any (fun e => decide (e.1 = key))

/-- `Map.prototype.get` on `valueMap`: key-object identity. -/
def mapGet (es : List (KeyObj α × β)) (key : KeyObj α) : Option β :=
  (es.find? (fun e => decide (e.1 = key))).map (fun e => e.2)

/-- `Map.prototype.set` on `valueMap`: update in place when the key object is
present, append otherwise. -/
def mapSet (es : List (KeyObj α × β)) (key : KeyObj α) (v : β) : List (KeyObj α × β) :=
  if es.any (fun e => decide (e.1 = key)) then
    es.map (fun e => if e.1 = key then (key, v) else e)
  else es ++ [(key, v)]

/-- `Map.prototype.get` on `subkeyToKeys`. -/
def indexGet (idx : List (α × List (KeyObj α))) (e : α) : Option (List (KeyObj α)) :=
  (idx.find? (fun r => decide (r.1 = e))).map (fun r => r.2)

/-- `Map.prototype.set` on `subkeyToKeys`. -/
def indexSet (idx : List (α × List (KeyObj α))) (e : α) (row : List (KeyObj α)) :
    List (α × List (KeyObj α)) :=
  if idx.any (fun r => decide (r.1 = e)) then
    idx.map (fun r => if r.1 = e then (e, row) else r)
  else idx ++ [(e, row)]

/-- `Map.prototype.delete` on `subkeyToKeys`. -/
def indexDelete (idx : List (α × List (KeyObj α))) (e : α) : List (α × List (KeyObj α)) :=
  idx.filter (fun r => decide (r.1 ≠ e))

/-- Lines 40-44 of `getCannonicalKey`, for one subkey: the index row for that
subkey (`?? []` when absent), restricted to keys whose `size` (element count of
a duplicate-free `Set`) equals the candidate's element count. -/
def candidateRowFor (C : SKM α β) (key : KeyObj α) (subkey : α) : List (KeyObj α) :=
  ((indexGet C.index subkey).getD []).filter
    (fun k => decide (k.elems.length = key.elems.length))

/-- Lines 36-44: the per-subkey lists of potential canonical keys. -/
def candidateRows (C : SKM α β) (key : KeyObj α) : List (List (KeyObj α)) :=
  key.elems.map (fun subkey => candidateRowFor C key subkey)

/-- Stable insertion into a list of rows ordered by ascending length. -/
def insertRow (r : List (KeyObj α)) : List (List (KeyObj α)) → List (List (KeyObj α))
  | [] => [r]
  | s :: rest => if r.length ≤ s.length then r :: s :: rest else s :: insertRow r rest

/-- Line 48: stable sort of the rows by ascending length
(`sort((a, b) => a.length - b.length)`). -/
def sortRows : List (List (KeyObj α)) → List (List (KeyObj α))
  | [] => []
  | r :: rest => insertRow r (sortRows rest)

/-- `getCannonicalKey` (lines 19-67): the canonical key equivalent to `key`,
or `none` (`false` in the source) when no equivalent key is stored.  The fast
path (lines 31-34) fires only when `key` is itself a stored canonical object;
otherwise the sorted candidate rows are searched for a key present in every
row (lines 58-63).  An empty candidate has no rows, hence no first row
(lines 50-56), and resolves to `none`. -/
def getCannonicalKey (C : SKM α β) (key : KeyObj α) : Option (KeyObj α) :=
  if C.valueMapHas key then some key
  else
    match sortRows (candidateRows C key) with
    | [] => none
    | firstSubkeys :: rest =>
        firstSubkeys.find? (fun k =>
          (firstSubkeys :: rest).all (fun keys => keys.any (fun k2 => decide (k2 = k))))

/-- `createCanonicalKey` (lines 70-72): `new Set(Array.from(from))` — a fresh
object (id from the allocator) holding the same elements. -/
def createCanonicalKey (C : SKM α β) (keyFrom : KeyObj α) : KeyObj α :=
  ⟨C.nextId, keyFrom.elems⟩

/-- `createUserFacingKey` (lines 74-76): a fresh copy with the same elements;
`freshId` models the allocator. -/
def createUserFacingKey (freshId : Nat) (keyFrom : KeyObj α) : KeyObj α :=
  ⟨freshId, keyFrom.elems⟩

/-- One iteration of the loop in lines 91-95: append the new canonical key to
the row of one subkey (creating the row when absent). -/
def registerOne (idx : List (α × List (KeyObj α))) (ck : KeyObj α) (subkey : α) :
    List (α × List (KeyObj α)) :=
  indexSet idx subkey (((indexGet idx subkey).getD []) ++ [ck])

/-- Lines 91-95: register the new canonical key under each of its subkeys. -/
def registerAll (idx : List (α × List (KeyObj α))) (ck : KeyObj α) (elems : List α) :
    List (α × List (KeyObj α)) :=
  elems.foldl (fun i e => registerOne i ck e) idx

/-- `set` (lines 79-99): update the value at the existing canonical key, or
create a fresh canonical key, store it, and register it in the index. -/
def set (C : SKM α β) (key : KeyObj α) (v : β) : SKM α β :=
  match C.getCannonicalKey key with
  | some existingCanonicalKey =>
      { C with entries := mapSet C.entries existingCanonicalKey v }
  | none =>
      let canonicalKey := C.createCanonicalKey key
      { entries := mapSet C.entries canonicalKey v,
        index := registerAll C.index canonicalKey canonicalKey.elems,
        nextId := C.nextId + 1 }

/-- One iteration of the loop in lines 110-126: remove the canonical key from
one subkey's row, dropping the row when it becomes empty; a missing row is
skipped (`continue`). -/
def unregisterOne (idx : List (α × List (KeyObj α))) (ck : KeyObj α) (subkey : α) :
    List (α × List (KeyObj α)) :=
  match indexGet idx subkey with
  | none => idx
  | some keylist =>
      let newkeylist := keylist.filter (fun k => decide (k ≠ ck))
      if newkeylist.length ≠ 0 then indexSet idx subkey newkeylist
      else indexDelete idx subkey

/-- Lines 110-126: unregister the canonical key from every subkey's row. -/
def unregisterAll (idx : List (α × List (KeyObj α))) (ck : KeyObj α) (elems : List α) :
    List (α × List (KeyObj α)) :=
  elems.foldl (fun i e => unregisterOne i ck e) idx

/-- `delete` (lines 101-131): returns whether an entry was removed, paired
with the new state. -/
def delete (C : SKM α β) (key : KeyObj α) : Bool × SKM α β :=
  match C.getCannonicalKey key with
  | none => (false, C)
  | some canonicalKey =>
      (true,
        { C with
          index := unregisterAll C.index canonicalKey canonicalKey.elems,
          entries := C.entries.filter (fun e => decide (e.1 ≠ canonicalKey)) })

/-- `get` (lines 133-142). -/
def get (C : SKM α β) (key : KeyObj α) : Option β :=
  match C.getCannonicalKey key with
  | none => none
  | some canonicalKey => mapGet C.entries canonicalKey

/-- `has` (lines 144-153). -/
def has (C : SKM α β) (key : KeyObj α) : Bool :=
  match C.getCannonicalKey key with
  | none => false
  | some canonicalKey => C.valueMapHas canonicalKey

/-- The copies produced by iterating `valueMap` and calling
`createUserFacingKey` on each key: the `n`-th copy receives id `start + n`
from the allocator. -/
def freshCopies (start : Nat) : List (KeyObj α × β) → List (KeyObj α × β)
  | [] => []
  | e :: rest => (createUserFacingKey start e.1, e.2) :: freshCopies (start + 1) rest

/-- `entries()` (lines 168-172): each yielded key is a fresh copy. -/
def entriesList (C : SKM α β) : List (KeyObj α × β) :=
  freshCopies C.nextId C.entries

/-- `keys()` (lines 156-160): each yielded key is a fresh copy. -/
def keysList (C : SKM α β) : List (KeyObj α) :=
  (freshCopies C.nextId C.entries).map (fun e => e.1)

/-- `values()` (lines 163-165). -/
def valuesList (C : SKM α β) : List β :=
  C.entries.map (fun e => e.2)

/-- `filter` (lines 208-219): a new `SetKeyedMap` populated through `set` with
the entries passing the predicate. -/
def filter (C : SKM α β) (p : β → KeyObj α → Bool) : SKM α β :=
  C.entriesList.foldl
    (fun result kv => if p kv.2 kv.1 then result.set kv.1 kv.2 else result) SKM.empty

/-- `mapOver` (lines 282-291): a new `SetKeyedMap` populated through `set` with
the transformed values. -/
def mapOver (C : SKM α β) (f : β → KeyObj α → γ) : SKM α γ :=
  C.entriesList.foldl (fun result kv => result.set kv.1 (f kv.2 kv.1)) SKM.empty

/-- `reduce` (lines 294-308): left fold over `entries()`. -/
def reduce (C : SKM α β) (f : δ → β → KeyObj α → δ) (initialValue : δ) : δ :=
  C.entriesList.foldl (fun accumulator kv => f accumulator kv.2 kv.1) initialValue

/-- `reduceRight` (lines 311-325): its body is identical to `reduce` — a left
fold over `entries()` in forward iteration order. -/
def reduceRight (C : SKM α β) (f : δ → β → KeyObj α → δ) (initialValue : δ) : δ :=
  C.entriesList.foldl (fun accumulator kv => f accumulator kv.2 kv.1) initialValue

/-- Two element lists have the same membership (the spec's key equivalence:
same elements, order and backing object irrelevant). -/
def EquivElems (l1 l2 : List α) : Prop := ∀ x, x ∈ l1 ↔ x ∈ l2

instance {l1 l2 : List α} : Decidable (EquivElems l1 l2) :=
  decidable_of_iff ((∀ x ∈ l1, x ∈ l2) ∧ ∀ x ∈ l2, x ∈ l1)
    (by
      constructor
      · rintro ⟨h1, h2⟩ x
        exact ⟨fun hx => h1 x hx, fun hx => h2 x hx⟩
      · intro h
        exact ⟨fun x hx => (h x).1 hx, fun x hx => (h x).2 hx⟩)

/-- `key` is a caller-supplied object: it is not (reference-)identical to any
of the container's internal canonical key objects. -/
def FreshKey (C : SKM α β) (key : KeyObj α) : Prop :=
  ∀ e ∈ C.entries, e.1.id ≠ key.id

instance {C : SKM α β} {key : KeyObj α} : Decidable (FreshKey C key) := by
  unfold FreshKey; infer_instance

/-- Well-formedness of a container state: the structural invariants of §3 of
the spec, restricted (for canonical-key uniqueness) to nonempty keys, since
the code can store several canonical keys with empty membership.
Conjuncts: stored ids are below the allocator counter; stored ids are
pairwise distinct; stored element lists are duplicate-free; at most one
stored canonical key per nonempty membership class; index row elements are
pairwise distinct; every index row is nonempty, duplicate-free, and contains
only live canonical keys that contain the row's element; every element of a
stored canonical key has an index row containing that key. -/
def Wf (C : SKM α β) : Prop :=
  (∀ e ∈ C.entries, e.1.id < C.nextId) ∧
  (C.entries.map (fun e => e.1.id)).Nodup ∧
  (∀ e ∈ C.entries, e.1.elems.Nodup) ∧
  (∀ e1 ∈ C.entries, ∀ e2 ∈ C.entries,
    e1.1.elems ≠ [] → EquivElems e1.1.elems e2.1.elems → e1.1 = e2.1) ∧
  (C.index.map (fun r => r.1)).Nodup ∧
  (∀ r ∈ C.index, r.2 ≠ [] ∧ r.2.Nodup ∧
    ∀ k ∈ r.2, r.1 ∈ k.elems ∧ ∃ e ∈ C.entries, e.1 = k) ∧
  (∀ e ∈ C.entries, ∀ x ∈ e.1.elems, ∃ r ∈ C.index, r.1 = x ∧ e.1 ∈ r.2)

instance {C : SKM α β} : Decidable (Wf C) := by
  unfold Wf; infer_instance

/-- The container states reachable through the public mutating interface,
starting from `new SetKeyedMap()`.  Caller-supplied keys are genuine `Set`
objects (`Nodup`) distinct from the container's internal objects
(`FreshKey`).  The read-only operations (`get`, `has`, iteration, `every`,
`some`, `find`, `includes`, `map`, `flatMap`, `reduce`, `reduceRight`) do not
change the state and so add no transitions. -/
inductive Reachable : SKM α β → Prop where
  | empty : Reachable SKM.empty
  | set {C : SKM α β} {k : KeyObj α} {v : β} : Reachable C → k.elems.Nodup →
      FreshKey C k → Reachable (C.set k v)
  | del {C : SKM α β} {k : KeyObj α} : Reachable C → k.elems.Nodup →
      FreshKey C k → Reachable (C.delete k).2
  | clear {C : SKM α β} : Reachable C → Reachable C.clear
  | filter {C : SKM α β} {p : β → KeyObj α → Bool} : Reachable C → Reachable (C.filter p)
  | mapOver {C : SKM α β} {f : β → KeyObj α → β} : Reachable C → Reachable (C.mapOver f)

/-- `indexGet` after `indexDelete`. -/
theorem indexGet_indexDelete (idx : List (α × List (KeyObj α))) (e x : α) :
    indexGet (indexDelete idx e) x = if x = e then none else indexGet idx x := by
  unfold indexDelete
  induction idx with
  | nil => simp [indexGet]
  | cons a rest ih =>
    by_cases hae : a.1 = e
    · rw [List.filter_cons_of_neg (by simpa using hae)]
      rw [ih]
      by_cases hxe : x = e
      · rw [if_pos hxe, if_pos hxe]
      · rw [if_neg hxe, if_neg hxe]
        have hax : ¬ a.1 = x := fun h => hxe (h.symm.trans hae)
        unfold indexGet
        rw [List.find?_cons_of_neg _ (by simpa using hax)]
    · rw [List.filter_cons_of_pos (by simpa using hae)]
      by_cases hax : a.1 = x
      · have hxe : ¬ x = e := fun h => hae (hax.trans h)
        rw [if_neg hxe]
        unfold indexGet
        rw [List.find?_cons_of_pos _ (by simpa using hax),
          List.find?_cons_of_pos _ (by simpa using hax)]
      · unfold indexGet
        rw [List.find?_cons_of_neg _ (by simpa using hax),
          List.find?_cons_of_neg _ (by simpa using hax)]
        exact ih

/-- Row elements of `indexSet`: unchanged when the element was present,
the element appended when absent. -/
theorem indexSet_map_fst (idx : List (α × List (KeyObj α))) (e : α) (row : List (KeyObj α)) :
    (indexSet idx e row).map (fun r => r.1) = idx.map (fun r => r.1) ∨
      (indexSet idx e row).map (fun r => r.1) = idx.map (fun r => r.1) ++ [e] := by
  unfold indexSet
  by_cases hp : idx.any (fun r => decide (r.1 = e)) = true
  · left
    rw [if_pos hp, List.map_map]
    apply List.map_congr_left
    intro r _
    by_cases hre : r.1 = e
    · simp [hre]
    · simp [hre]
  · right
    rw [if_neg hp]
    simp

theorem indexSet_keys_nodup {idx : List (α × List (KeyObj α))} {e : α} {row : List (KeyObj α)}
    (hnd : (idx.map (fun r => r.1)).Nodup) :
    ((indexSet idx e row).map (fun r => r.1)).Nodup := by
  unfold indexSet
  by_cases hp : idx.any (fun r => decide (r.1 = e)) = true
  · rw [if_pos hp, List.map_map]
    have : (idx.map ((fun r => r.1) ∘ fun r => if r.1 = e then (e, row) else r)) =
        idx.map (fun r => r.1) := by
      apply List.map_congr_left
      intro r _
      by_cases hre : r.1 = e
      · simp [hre]
      · simp [hre]
    rw [this]
    exact hnd
  · rw [if_neg hp]
    simp only [List.map_append, List.map_cons, List.map_nil]
    rw [List.nodup_append]
    refine ⟨hnd, List.nodup_singleton e, ?_⟩
    intro x hx
    simp only [List.mem_singleton]
    intro hxe
    subst hxe
    simp only [List.any_eq_true, not_exists, not_and, decide_eq_true_eq] at hp
    obtain ⟨r, hr, hre⟩ := List.mem_map.1 hx
    exact hp r hr hre

theorem indexDelete_keys_nodup {idx : List (α × List (KeyObj α))} {e : α}
    (hnd : (idx.map (fun r => r.1)).Nodup) :
    ((indexDelete idx e).map (fun r => r.1)).Nodup := by
  unfold indexDelete
  exact ((List.filter_sublist idx).map (fun r => r.1)).nodup hnd

/-- `insertRow` permutes a cons. -/
theorem insertRow_perm (r : List (KeyObj α)) (l : List (List (KeyObj α))) :
    (insertRow r l).Perm (r :: l) := by
  induction l with
  | nil => exact List.Perm.refl _
  | cons s rest ih =>
    unfold insertRow
    by_cases h : r.length ≤ s.length
    · rw [if_pos h]
    · rw [if_neg h]
      have h1 : (s :: insertRow r rest).Perm (s :: r :: rest) := List.Perm.cons s ih
      exact h1.trans (List.Perm.swap r s rest)

/-- `sortRows` is a permutation of its input. -/
theorem sortRows_perm (l : List (List (KeyObj α))) : (sortRows l).Perm l := by
  induction l with
  | nil => exact List.Perm.refl _
  | cons r rest ih =>
    unfold sortRows
    exact (insertRow_perm r (sortRows rest)).trans (List.Perm.cons r ih)

theorem sortRows_mem {l : List (List (KeyObj α))} {row : List (KeyObj α)} :
    row ∈ sortRows l ↔ row ∈ l :=
  (sortRows_perm l).mem_iff

theorem sortRows_eq_nil {l : List (List (KeyObj α))} : sortRows l = [] ↔ l = [] := by
  constructor
  · intro h
    have := (sortRows_perm l).length_eq
    rw [h] at this
    exact List.eq_nil_of_length_eq_zero this.symm
  · intro h
    subst h
    rfl


end SKM

namespace SKM

variable {α β γ δ : Type} [DecidableEq α]

theorem EquivElems.refl (l : List α) : EquivElems l l := fun _ => Iff.rfl

theorem EquivElems.symm {l1 l2 : List α} (h : EquivElems l1 l2) : EquivElems l2 l1 :=
  fun x => (h x).symm

theorem EquivElems.trans {l1 l2 l3 : List α} (h1 : EquivElems l1 l2)
    (h2 : EquivElems l2 l3) : EquivElems l1 l3 :=
  fun x => (h1 x).trans (h2 x)

theorem EquivElems.of_perm {l1 l2 : List α} (h : l1.Perm l2) : EquivElems l1 l2 :=
  fun _ => h.mem_iff

theorem EquivElems.eq_nil {l1 l2 : List α} (h : EquivElems l1 l2) (h1 : l1 = []) : l2 = [] := by
  subst h1
  cases l2 with
  | nil => rfl
  | cons a l => exact absurd ((h a).2 (List.mem_cons_self a l)) (List.not_mem_nil a)

theorem EquivElems.ne_nil {l1 l2 : List α} (h : EquivElems l1 l2) (h1 : l1 ≠ []) : l2 ≠ [] :=
  fun h2 => h1 (h.symm.eq_nil h2)

theorem EquivElems.subset {l1 l2 : List α} (h : EquivElems l1 l2) : l1 ⊆ l2 :=
  fun _ hx => (h _).1 hx

theorem EquivElems.perm {l1 l2 : List α} (h : EquivElems l1 l2)
    (h1 : l1.Nodup) (h2 : l2.Nodup) : l1.Perm l2 := by
  have s1 : l1.Subperm l2 := List.subperm_of_subset h1 h.subset
  have s2 : l2.Subperm l1 := List.subperm_of_subset h2 h.symm.subset
  exact s1.perm_of_length_le s2.length_le

theorem EquivElems.length_eq {l1 l2 : List α} (h : EquivElems l1 l2)
    (h1 : l1.Nodup) (h2 : l2.Nodup) : l1.length = l2.length :=
  (h.perm h1 h2).length_eq

theorem nodup_map_eq_of_mem {A B : Type} {l : List A} {f : A → B} (hnd : (l.map f).Nodup)
    {a b : A} (ha : a ∈ l) (hb : b ∈ l) (hf : f a = f b) : a = b :=
  List.inj_on_of_nodup_map hnd ha hb hf

/-- `indexGet` only returns rows that are in the association list. -/
theorem indexGet_mem {idx : List (α × List (KeyObj α))} {x : α} {l : List (KeyObj α)}
    (h : indexGet idx x = some l) : (x, l) ∈ idx := by
  unfold indexGet at h
  cases hf : idx.find? (fun r => decide (r.1 = x)) with
  | none => rw [hf] at h; simp at h
  | some r =>
    rw [hf] at h
    simp only [Option.map_some', Option.some.injEq] at h
    have hm := List.mem_of_find?_eq_some hf
    have hp := List.find?_some hf
    simp only [decide_eq_true_eq] at hp
    obtain ⟨r1, r2⟩ := r
    simp only at hp h
    subst hp; subst h
    exact hm

/-- With duplicate-free row elements, a member of the association list is found
by `indexGet`. -/
theorem indexGet_of_mem {idx : List (α × List (KeyObj α))}
    (hnd : (idx.map (fun r => r.1)).Nodup) {r : α × List (KeyObj α)} (hr : r ∈ idx) :
    indexGet idx r.1 = some r.2 := by
  induction idx with
  | nil => cases hr
  | cons a rest ih =>
    simp only [List.map_cons, List.nodup_cons] at hnd
    rcases List.mem_cons.1 hr with h | h
    · subst h
      unfold indexGet
      rw [List.find?_cons_of_pos _ (by simp)]
      rfl
    · have hne : a.1 ≠ r.1 := by
        intro he
        exact hnd.1 (he ▸ List.mem_map_of_mem (fun r => r.1) h)
      unfold indexGet
      rw [List.find?_cons_of_neg _ (by simpa using hne)]
      exact ih hnd.2 h

theorem indexGet_nil (x : α) : indexGet ([] : List (α × List (KeyObj α))) x = none := rfl

theorem indexGet_map_update_ne {e x : α} {row : List (KeyObj α)}
    (idx : List (α × List (KeyObj α))) (hxe : x ≠ e) :
    indexGet (idx.map (fun r => if r.1 = e then (e, row) else r)) x = indexGet idx x := by
  induction idx with
  | nil => rfl
  | cons a rest ih =>
    by_cases hae : a.1 = e
    · have hax : ¬ a.1 = x := fun h => hxe (h ▸ hae)
      unfold indexGet
      rw [List.map_cons, if_pos hae, List.find?_cons_of_neg _ (by simpa using fun h => hxe h.symm),
        List.find?_cons_of_neg _ (by simpa using hax)]
      exact ih
    · unfold indexGet
      rw [List.map_cons, if_neg hae]
      by_cases hax : a.1 = x
      · rw [List.find?_cons_of_pos _ (by simpa using hax), List.find?_cons_of_pos _ (by simpa using hax)]
      · rw [List.find?_cons_of_neg _ (by simpa using hax), List.find?_cons_of_neg _ (by simpa using hax)]
        exact ih

theorem indexGet_map_update_eq {e : α} {row : List (KeyObj α)}
    {idx : List (α × List (KeyObj α))} (hp : idx.any (fun r => decide (r.1 = e)) = true) :
    indexGet (idx.map (fun r => if r.1 = e then (e, row) else r)) e = some row := by
  induction idx with
  | nil => simp at hp
  | cons a rest ih =>
    by_cases hae : a.1 = e
    · unfold indexGet
      rw [List.map_cons, if_pos hae, List.find?_cons_of_pos _ (by simp)]
      rfl
    · unfold indexGet
      rw [List.map_cons, if_neg hae, List.find?_cons_of_neg _ (by simpa using hae)]
      have hp' : rest.any (fun r => decide (r.1 = e)) = true := by
        simp only [List.any_cons, Bool.or_eq_true, decide_eq_true_eq] at hp
        rcases hp with h | h
        · exact absurd h hae
        · exact h
      exact ih hp'

theorem indexGet_append_single (idx : List (α × List (KeyObj α))) (e x : α)
    (row : List (KeyObj α)) :
    indexGet (idx ++ [(e, row)]) x =
      ((indexGet idx x).orElse (fun _ => if x = e then some row else none)) := by
  induction idx with
  | nil =>
    by_cases hxe : x = e
    · subst hxe
      unfold indexGet
      rw [List.nil_append, List.find?_cons_of_pos _ (by simp)]
      simp
    · unfold indexGet
      rw [List.nil_append, List.find?_cons_of_neg _ (by simpa using fun h => hxe h.symm)]
      simp [hxe]
  | cons a rest ih =>
    by_cases hax : a.1 = x
    · unfold indexGet
      rw [List.cons_append, List.find?_cons_of_pos _ (by simpa using hax),
        List.find?_cons_of_pos _ (by simpa using hax)]
      rfl
    · unfold indexGet
      rw [List.cons_append, List.find?_cons_of_neg _ (by simpa using hax),
        List.find?_cons_of_neg _ (by simpa using hax)]
      exact ih

/-- `indexGet` after `indexSet`. -/
theorem indexGet_indexSet (idx : List (α × List (KeyObj α))) (e : α)
    (row : List (KeyObj α)) (x : α) :
    indexGet (indexSet idx e row) x = if x = e then some row else indexGet idx x := by
  unfold indexSet
  by_cases hp : idx.any (fun r => decide (r.1 = e)) = true
  · rw [if_pos hp]
    by_cases hxe : x = e
    · subst hxe
      rw [if_pos rfl]
      exact indexGet_map_update_eq hp
    · rw [if_neg hxe]
      exact indexGet_map_update_ne idx hxe
  · rw [if_neg hp]
    rw [indexGet_append_single]
    by_cases hxe : x = e
    · subst hxe
      have hn : indexGet idx x = none := by
        simp only [List.any_eq_true, not_exists, not_and, decide_eq_true_eq] at hp
        unfold indexGet
        rw [List.find?_eq_none.2 (by
          intro r hr
          simpa using hp r hr)]
        rfl
      rw [hn]
      simp
    · cases hg : indexGet idx x with
      | none => simp [hxe]
      | some l => simp [Option.orElse, hxe]

end SKM

namespace SKM

variable {α β γ δ : Type} [DecidableEq α]

theorem indexGet_registerOne (idx : List (α × List (KeyObj α))) (ck : KeyObj α) (e x : α) :
    indexGet (registerOne idx ck e) x =
      if x = e then some (((indexGet idx e).getD []) ++ [ck]) else indexGet idx x := by
  unfold registerOne
  rw [indexGet_indexSet]

theorem registerOne_keys_nodup {idx : List (α × List (KeyObj α))} {ck : KeyObj α} {e : α}
    (hnd : (idx.map (fun r => r.1)).Nodup) :
    ((registerOne idx ck e).map (fun r => r.1)).Nodup :=
  indexSet_keys_nodup hnd

/-- Effect of registering a canonical key under a duplicate-free element list. -/
theorem indexGet_registerAll (idx : List (α × List (KeyObj α))) (ck : KeyObj α)
    (elems : List α) (hnd : elems.Nodup) (x : α) :
    indexGet (registerAll idx ck elems) x =
      if x ∈ elems then some (((indexGet idx x).getD []) ++ [ck]) else indexGet idx x := by
  induction elems generalizing idx with
  | nil => simp [registerAll]
  | cons e rest ih =>
    have hnd' : rest.Nodup := (List.nodup_cons.1 hnd).2
    have her : e ∉ rest := (List.nodup_cons.1 hnd).1
    have hstep : registerAll idx ck (e :: rest) = registerAll (registerOne idx ck e) ck rest := rfl
    rw [hstep, ih _ hnd']
    by_cases hxr : x ∈ rest
    · rw [if_pos hxr, if_pos (List.mem_cons_of_mem e hxr)]
      have hxe : ¬ x = e := fun h => her (h ▸ hxr)
      rw [indexGet_registerOne, if_neg hxe]
    · rw [if_neg hxr, indexGet_registerOne]
      by_cases hxe : x = e
      · subst hxe
        rw [if_pos rfl, if_pos (List.mem_cons_self x rest)]
      · rw [if_neg hxe, if_neg (by simpa using ⟨hxe, hxr⟩)]

theorem registerAll_keys_nodup {idx : List (α × List (KeyObj α))} {ck : KeyObj α}
    {elems : List α} (hnd : (idx.map (fun r => r.1)).Nodup) :
    ((registerAll idx ck elems).map (fun r => r.1)).Nodup := by
  induction elems generalizing idx with
  | nil => exact hnd
  | cons e rest ih => exact ih (registerOne_keys_nodup hnd)

theorem indexGet_unregisterOne (idx : List (α × List (KeyObj α))) (ck : KeyObj α) (e x : α) :
    indexGet (unregisterOne idx ck e) x =
      if x = e then
        (indexGet idx e).bind (fun keylist =>
          let newkeylist := keylist.filter (fun k => decide (k ≠ ck))
          if newkeylist.length ≠ 0 then some newkeylist else none)
      else indexGet idx x := by
  unfold unregisterOne
  cases hg : indexGet idx e with
  | none =>
    by_cases hxe : x = e
    · subst hxe
      rw [if_pos rfl, hg]
      rfl
    · rw [if_neg hxe]
  | some keylist =>
    dsimp only
    by_cases hne : (keylist.filter (fun k => decide (k ≠ ck))).length ≠ 0
    · rw [if_pos hne, indexGet_indexSet]
      by_cases hxe : x = e
      · subst hxe
        rw [if_pos rfl, if_pos rfl]
        simp only [Option.some_bind]
        rw [if_pos hne]
      · rw [if_neg hxe, if_neg hxe]
    · rw [if_neg hne, indexGet_indexDelete]
      by_cases hxe : x = e
      · subst hxe
        rw [if_pos rfl, if_pos rfl]
        simp only [Option.some_bind]
        rw [if_neg hne]
      · rw [if_neg hxe, if_neg hxe]

theorem unregisterOne_keys_nodup {idx : List (α × List (KeyObj α))} {ck : KeyObj α} {e : α}
    (hnd : (idx.map (fun r => r.1)).Nodup) :
    ((unregisterOne idx ck e).map (fun r => r.1)).Nodup := by
  unfold unregisterOne
  cases indexGet idx e with
  | none => exact hnd
  | some keylist =>
    dsimp only
    by_cases hne : (keylist.filter (fun k => decide (k ≠ ck))).length ≠ 0
    · rw [if_pos hne]
      exact indexSet_keys_nodup hnd
    · rw [if_neg hne]
      exact indexDelete_keys_nodup hnd

/-- Effect of unregistering a canonical key under a duplicate-free element list. -/
theorem indexGet_unregisterAll (idx : List (α × List (KeyObj α))) (ck : KeyObj α)
    (elems : List α) (hnd : elems.Nodup) (x : α) :
    indexGet (unregisterAll idx ck elems) x =
      if x ∈ elems then
        (indexGet idx x).bind (fun keylist =>
          let newkeylist := keylist.filter (fun k => decide (k ≠ ck))
          if newkeylist.length ≠ 0 then some newkeylist else none)
      else indexGet idx x := by
  induction elems generalizing idx with
  | nil => simp [unregisterAll]
  | cons e rest ih =>
    have hnd' : rest.Nodup := (List.nodup_cons.1 hnd).2
    have her : e ∉ rest := (List.nodup_cons.1 hnd).1
    have hstep : unregisterAll idx ck (e :: rest) = unregisterAll (unregisterOne idx ck e) ck rest := rfl
    rw [hstep, ih _ hnd']
    by_cases hxr : x ∈ rest
    · rw [if_pos hxr, if_pos (List.mem_cons_of_mem e hxr)]
      have hxe : ¬ x = e := fun h => her (h ▸ hxr)
      rw [indexGet_unregisterOne, if_neg hxe]
    · rw [if_neg hxr, indexGet_unregisterOne]
      by_cases hxe : x = e
      · subst hxe
        rw [if_pos rfl, if_pos (List.mem_cons_self x rest)]
      · rw [if_neg hxe, if_neg (by simpa using ⟨hxe, hxr⟩)]

theorem unregisterAll_keys_nodup {idx : List (α × List (KeyObj α))} {ck : KeyObj α}
    {elems : List α} (hnd : (idx.map (fun r => r.1)).Nodup) :
    ((unregisterAll idx ck elems).map (fun r => r.1)).Nodup := by
  induction elems generalizing idx with
  | nil => exact hnd
  | cons e rest ih => exact ih (unregisterOne_keys_nodup hnd)

end SKM

namespace SKM

variable {α β γ δ : Type} [DecidableEq α]

theorem valueMapHas_eq_false_of_fresh {C : SKM α β} {key : KeyObj α}
    (hf : FreshKey C key) : C.valueMapHas key = false := by
  unfold valueMapHas
  rw [List.any_eq_false]
  intro e he
  simp only [decide_eq_true_eq]
  intro hek
  exact hf e he (by rw [hek])

theorem mapSet_of_absent {es : List (KeyObj α × β)} {key : KeyObj α} (v : β)
    (h : ∀ e ∈ es, e.1 ≠ key) : mapSet es key v = es ++ [(key, v)] := by
  unfold mapSet
  rw [if_neg]
  simp only [List.any_eq_true, not_exists, not_and, decide_eq_true_eq]
  intro e he
  exact h e he

theorem mapSet_map_fst_of_present {es : List (KeyObj α × β)} {key : KeyObj α} (v : β)
    (h : es.any (fun e => decide (e.1 = key)) = true) :
    (mapSet es key v).map (fun e => e.1) = es.map (fun e => e.1) := by
  unfold mapSet
  rw [if_pos h, List.map_map]
  apply List.map_congr_left
  intro e _
  by_cases hek : e.1 = key
  · simp [hek]
  · simp [hek]

theorem mapSet_length_of_present {es : List (KeyObj α × β)} {key : KeyObj α} (v : β)
    (h : es.any (fun e => decide (e.1 = key)) = true) :
    (mapSet es key v).length = es.length := by
  unfold mapSet
  rw [if_pos h, List.length_map]

theorem mapSet_mem_self {es : List (KeyObj α × β)} {key : KeyObj α} (v : β) :
    (key, v) ∈ mapSet es key v := by
  unfold mapSet
  by_cases h : es.any (fun e => decide (e.1 = key)) = true
  · rw [if_pos h]
    simp only [List.any_eq_true, decide_eq_true_eq] at h
    obtain ⟨e, he, hek⟩ := h
    exact List.mem_map.2 ⟨e, he, by simp [hek]⟩
  · rw [if_neg h]
    exact List.mem_append_right _ (List.mem_singleton_self _)

theorem mapSet_mem_other {es : List (KeyObj α × β)} {key : KeyObj α} {v : β}
    {e : KeyObj α × β} (he : e ∈ es) (hne : e.1 ≠ key) : e ∈ mapSet es key v := by
  unfold mapSet
  by_cases h : es.any (fun e => decide (e.1 = key)) = true
  · rw [if_pos h]
    exact List.mem_map.2 ⟨e, he, by simp [hne]⟩
  · rw [if_neg h]
    exact List.mem_append_left _ he

theorem mapSet_mem_inv {es : List (KeyObj α × β)} {key : KeyObj α} {v : β}
    {e : KeyObj α × β} (he : e ∈ mapSet es key v) :
    e = (key, v) ∨ (e ∈ es ∧ e.1 ≠ key) := by
  unfold mapSet at he
  by_cases h : es.any (fun e => decide (e.1 = key)) = true
  · rw [if_pos h] at he
    obtain ⟨e', he', heq⟩ := List.mem_map.1 he
    by_cases hek : e'.1 = key
    · rw [if_pos hek] at heq
      exact Or.inl heq.symm
    · rw [if_neg hek] at heq
      exact Or.inr ⟨heq ▸ he', heq ▸ hek⟩
  · rw [if_neg h] at he
    rcases List.mem_append.1 he with h1 | h1
    · simp only [List.any_eq_true, not_exists, not_and, decide_eq_true_eq] at h
      exact Or.inr ⟨h1, h e h1⟩
    · exact Or.inl (List.mem_singleton.1 h1)

theorem mapGet_of_mem {es : List (KeyObj α × β)} {key : KeyObj α} {v : β}
    (hnd : (es.map (fun e => e.1.id)).Nodup) (h : (key, v) ∈ es) :
    mapGet es key = some v := by
  induction es with
  | nil => cases h
  | cons a rest ih =>
    simp only [List.map_cons, List.nodup_cons] at hnd
    rcases List.mem_cons.1 h with h1 | h1
    · unfold mapGet
      rw [List.find?_cons_of_pos _ (by simp [← h1])]
      rw [← h1]
      rfl
    · have hne : ¬ a.1 = key := by
        intro hak
        have : a.1.id ∈ rest.map (fun e => e.1.id) := by
          have := List.mem_map_of_mem (fun e => e.1.id) h1
          simpa [hak] using this
        exact hnd.1 this
      unfold mapGet
      rw [List.find?_cons_of_neg _ (by simpa using hne)]
      exact ih hnd.2 h1

theorem valueMapHas_of_mem {C : SKM α β} {key : KeyObj α} {v : β}
    (h : (key, v) ∈ C.entries) : C.valueMapHas key = true := by
  unfold valueMapHas
  rw [List.any_eq_true]
  exact ⟨(key, v), h, by simp⟩

end SKM

namespace SKM

variable {α β γ δ : Type} [DecidableEq α]

theorem Wf.idsLt {C : SKM α β} (h : Wf C) : ∀ e ∈ C.entries, e.1.id < C.nextId := h.1

theorem Wf.idsNodup {C : SKM α β} (h : Wf C) : (C.entries.map (fun e => e.1.id)).Nodup := h.2.1

theorem Wf.keysNodup {C : SKM α β} (h : Wf C) : ∀ e ∈ C.entries, e.1.elems.Nodup := h.2.2.1

theorem Wf.uniq {C : SKM α β} (h : Wf C) :
    ∀ e1 ∈ C.entries, ∀ e2 ∈ C.entries,
      e1.1.elems ≠ [] → EquivElems e1.1.elems e2.1.elems → e1.1 = e2.1 := h.2.2.2.1

theorem Wf.rowKeysNodup {C : SKM α β} (h : Wf C) : (C.index.map (fun r => r.1)).Nodup :=
  h.2.2.2.2.1

theorem Wf.rows {C : SKM α β} (h : Wf C) :
    ∀ r ∈ C.index, r.2 ≠ [] ∧ r.2.Nodup ∧
      ∀ k ∈ r.2, r.1 ∈ k.elems ∧ ∃ e ∈ C.entries, e.1 = k := h.2.2.2.2.2.1

theorem Wf.rowFor {C : SKM α β} (h : Wf C) :
    ∀ e ∈ C.entries, ∀ x ∈ e.1.elems, ∃ r ∈ C.index, r.1 = x ∧ e.1 ∈ r.2 := h.2.2.2.2.2.2

theorem mem_candidateRowFor_iff {C : SKM α β} {key : KeyObj α} {x : α} {ck : KeyObj α} :
    ck ∈ candidateRowFor C key x ↔
      (∃ l, indexGet C.index x = some l ∧ ck ∈ l) ∧
        ck.elems.length = key.elems.length := by
  unfold candidateRowFor
  rw [List.mem_filter]
  constructor
  · rintro ⟨hm, hl⟩
    cases hg : indexGet C.index x with
    | none =>
      rw [hg] at hm
      cases hm
    | some l =>
      rw [hg] at hm
      exact ⟨⟨l, rfl, by simpa using hm⟩, by simpa using hl⟩
  · rintro ⟨⟨l, hg, hm⟩, hl⟩
    rw [hg]
    exact ⟨by simpa using hm, by simpa using hl⟩

/-- A key found by the canonicalization search is a stored canonical key whose
membership equals the candidate's. -/
theorem getCannonicalKey_sound {C : SKM α β} {k ck : KeyObj α} (hwf : Wf C)
    (hf : FreshKey C k) (hnd : k.elems.Nodup)
    (h : C.getCannonicalKey k = some ck) :
    (∃ v, (ck, v) ∈ C.entries) ∧ EquivElems ck.elems k.elems := by
  have hfp := valueMapHas_eq_false_of_fresh hf
  unfold getCannonicalKey at h
  rw [if_neg (by rw [hfp]; simp)] at h
  cases hs : sortRows (candidateRows C k) with
  | nil => rw [hs] at h; cases h
  | cons fr rest =>
    rw [hs] at h
    have hckfr : ck ∈ fr := List.mem_of_find?_eq_some h
    have hpred := List.find?_some h
    simp only [List.all_eq_true, List.any_eq_true, decide_eq_true_eq] at hpred
    have hinall : ∀ row ∈ candidateRows C k, ck ∈ row := by
      intro row hrow
      have hrow' : row ∈ fr :: rest := by
        rw [← hs]
        exact sortRows_mem.2 hrow
      obtain ⟨k2, hk2, hk2e⟩ := hpred row hrow'
      rw [← hk2e]
      exact hk2
    have hfrmem : fr ∈ candidateRows C k :=
      sortRows_mem.1 (by rw [hs]; exact List.mem_cons_self fr rest)
    obtain ⟨x0, hx0, hx0eq⟩ := List.mem_map.1 hfrmem
    have hck0 : ck ∈ candidateRowFor C k x0 := hx0eq ▸ hckfr
    obtain ⟨⟨l0, hg0, hm0⟩, hlen⟩ := mem_candidateRowFor_iff.1 hck0
    have hr0 := indexGet_mem hg0
    obtain ⟨_, _, hrmem⟩ := hwf.rows (x0, l0) hr0
    obtain ⟨_, ⟨e0, he0, he0eq⟩⟩ := hrmem ck hm0
    have hstored : ∃ v, (ck, v) ∈ C.entries := ⟨e0.2, by rw [← he0eq]; exact he0⟩
    have hsub : k.elems ⊆ ck.elems := by
      intro x hx
      have hrowmem : candidateRowFor C k x ∈ candidateRows C k :=
        List.mem_map_of_mem (fun subkey => candidateRowFor C k subkey) hx
      have hckx : ck ∈ candidateRowFor C k x := hinall _ hrowmem
      obtain ⟨⟨l, hg, hm⟩, _⟩ := mem_candidateRowFor_iff.1 hckx
      have hr := indexGet_mem hg
      obtain ⟨_, _, hrmem'⟩ := hwf.rows (x, l) hr
      exact (hrmem' ck hm).1
    have hcknd : ck.elems.Nodup := by
      have := hwf.keysNodup e0 he0
      rw [he0eq] at this
      exact this
    have hperm : k.elems.Perm ck.elems :=
      (List.subperm_of_subset hnd hsub).perm_of_length_le (by rw [hlen])
    exact ⟨hstored, (EquivElems.of_perm hperm).symm⟩

/-- When no stored canonical key has the candidate's membership, the search
fails. -/
theorem getCannonicalKey_none {C : SKM α β} {k : KeyObj α} (hwf : Wf C)
    (hf : FreshKey C k) (hnd : k.elems.Nodup)
    (habs : ∀ e ∈ C.entries, ¬ EquivElems e.1.elems k.elems) :
    C.getCannonicalKey k = none := by
  cases h : C.getCannonicalKey k with
  | none => rfl
  | some ck =>
    obtain ⟨⟨v, hm⟩, heq⟩ := getCannonicalKey_sound hwf hf hnd h
    exact absurd heq (habs (ck, v) hm)

/-- A stored canonical key with the candidate's (nonempty) membership is found
by the search. -/
theorem getCannonicalKey_complete {C : SKM α β} {k : KeyObj α} {e : KeyObj α × β}
    (hwf : Wf C) (hf : FreshKey C k) (hnd : k.elems.Nodup) (hne : k.elems ≠ [])
    (he : e ∈ C.entries) (heq : EquivElems e.1.elems k.elems) :
    C.getCannonicalKey k = some e.1 := by
  have hfp := valueMapHas_eq_false_of_fresh hf
  have hckrow : ∀ x ∈ k.elems, e.1 ∈ candidateRowFor C k x := by
    intro x hx
    have hxe : x ∈ e.1.elems := (heq x).2 hx
    obtain ⟨r, hr, hr1, hmem⟩ := hwf.rowFor e he x hxe
    have hg : indexGet C.index x = some r.2 := by
      have h1 := indexGet_of_mem hwf.rowKeysNodup hr
      rw [hr1] at h1
      exact h1
    rw [mem_candidateRowFor_iff]
    exact ⟨⟨r.2, hg, hmem⟩, heq.length_eq (hwf.keysNodup e he) hnd⟩
  have hres : ∃ ck', C.getCannonicalKey k = some ck' := by
    unfold getCannonicalKey
    rw [if_neg (by rw [hfp]; simp)]
    cases hs : sortRows (candidateRows C k) with
    | nil =>
      exfalso
      rw [sortRows_eq_nil] at hs
      unfold candidateRows at hs
      rw [List.map_eq_nil_iff] at hs
      exact hne hs
    | cons fr rest =>
      have hallrows : ∀ row ∈ fr :: rest, e.1 ∈ row := by
        intro row hrow'
        have hrm : row ∈ candidateRows C k :=
          sortRows_mem.1 (by rw [hs]; exact hrow')
        obtain ⟨x, hx, hxeq⟩ := List.mem_map.1 hrm
        rw [← hxeq]
        exact hckrow x hx
      have hsome : (fr.find? (fun kk =>
          (fr :: rest).all (fun keys => keys.any (fun k2 => decide (k2 = kk))))).isSome := by
        rw [List.find?_isSome]
        refine ⟨e.1, hallrows fr (List.mem_cons_self fr rest), ?_⟩
        simp only [List.all_eq_true, List.any_eq_true, decide_eq_true_eq]
        intro row hrow'
        exact ⟨e.1, hallrows row hrow', rfl⟩
      obtain ⟨ck', hck'⟩ := Option.isSome_iff_exists.1 hsome
      exact ⟨ck', hck'⟩
  obtain ⟨ck', hck'⟩ := hres
  obtain ⟨⟨v, hm⟩, heq'⟩ := getCannonicalKey_sound hwf hf hnd hck'
  have hne' : ck'.elems ≠ [] := fun h0 => hne (heq'.eq_nil h0)
  have hEq2 : EquivElems ck'.elems e.1.elems := heq'.trans heq.symm
  have hid : ck' = e.1 := hwf.uniq (ck', v) hm e he hne' hEq2
  rw [hck', hid]

/-- An empty candidate always resolves to `none` (lines 50-56). -/
theorem getCannonicalKey_empty {C : SKM α β} {k : KeyObj α}
    (hf : FreshKey C k) (he : k.elems = []) : C.getCannonicalKey k = none := by
  have hfp := valueMapHas_eq_false_of_fresh hf
  unfold getCannonicalKey
  rw [if_neg (by rw [hfp]; simp)]
  have hrows : candidateRows C k = [] := by
    unfold candidateRows
    rw [he]
    rfl
  rw [hrows]
  rfl

end SKM

namespace SKM

variable {α β γ δ : Type} [DecidableEq α]

theorem set_unfold_found {C : SKM α β} {k ck : KeyObj α} {v : β}
    (hres : C.getCannonicalKey k = some ck) :
    C.set k v = { C with entries := mapSet C.entries ck v } := by
  unfold set
  rw [hres]

theorem set_unfold_none {C : SKM α β} {k : KeyObj α} {v : β}
    (hres : C.getCannonicalKey k = none) :
    C.set k v =
      ⟨mapSet C.entries ⟨C.nextId, k.elems⟩ v,
        registerAll C.index ⟨C.nextId, k.elems⟩ k.elems, C.nextId + 1⟩ := by
  unfold set
  rw [hres]
  rfl

theorem cknew_absent {C : SKM α β} (hwf : Wf C) (elems : List α) :
    ∀ e ∈ C.entries, e.1 ≠ (⟨C.nextId, elems⟩ : KeyObj α) := by
  intro e he heq
  have := hwf.idsLt e he
  rw [heq] at this
  exact lt_irrefl _ this

theorem set_entries_none {C : SKM α β} {k : KeyObj α} {v : β} (hwf : Wf C)
    (hres : C.getCannonicalKey k = none) :
    (C.set k v).entries = C.entries ++ [(⟨C.nextId, k.elems⟩, v)] := by
  rw [set_unfold_none hres]
  exact mapSet_of_absent v (cknew_absent hwf k.elems)

/-- After `set`, some stored entry has the key's membership and the new value. -/
theorem set_mem_entry {C : SKM α β} {k : KeyObj α} (hwf : Wf C)
    (hnd : k.elems.Nodup) (hf : FreshKey C k) (v : β) :
    ∃ e ∈ (C.set k v).entries, EquivElems e.1.elems k.elems ∧ e.2 = v := by
  cases hres : C.getCannonicalKey k with
  | some ck =>
    obtain ⟨⟨v0, hm0⟩, heq0⟩ := getCannonicalKey_sound hwf hf hnd hres
    refine ⟨(ck, v), ?_, heq0, rfl⟩
    rw [set_unfold_found hres]
    exact mapSet_mem_self v
  | none =>
    refine ⟨(⟨C.nextId, k.elems⟩, v), ?_, EquivElems.refl _, rfl⟩
    rw [set_entries_none hwf hres]
    exact List.mem_append_right _ (List.mem_singleton_self _)

/-- Every key stored after `set` is either an old stored key or has the
inserted key's membership. -/
theorem set_mem_inv {C : SKM α β} {k : KeyObj α} {v : β} (hwf : Wf C)
    (hnd : k.elems.Nodup) (hf : FreshKey C k) {e' : KeyObj α × β}
    (he' : e' ∈ (C.set k v).entries) :
    (∃ f ∈ C.entries, e'.1 = f.1) ∨ e'.1.elems = k.elems := by
  cases hres : C.getCannonicalKey k with
  | some ck =>
    obtain ⟨⟨v0, hm0⟩, heq0⟩ := getCannonicalKey_sound hwf hf hnd hres
    rw [set_unfold_found hres] at he'
    rcases mapSet_mem_inv he' with h1 | ⟨h1, _⟩
    · exact Or.inl ⟨(ck, v0), hm0, by rw [h1]⟩
    · exact Or.inl ⟨e', h1, rfl⟩
  | none =>
    rw [set_entries_none hwf hres] at he'
    rcases List.mem_append.1 he' with h1 | h1
    · exact Or.inl ⟨e', h1, rfl⟩
    · rw [List.mem_singleton.1 h1]
      exact Or.inr rfl

/-- `get` on a key equivalent to a stored entry's key returns that entry's
value. -/
theorem get_of_equiv_entry {C : SKM α β} {k : KeyObj α} {e : KeyObj α × β}
    (hwf : Wf C) (he : e ∈ C.entries) (heq : EquivElems e.1.elems k.elems)
    (hne : k.elems ≠ []) (hf : FreshKey C k) (hnd : k.elems.Nodup) :
    C.get k = some e.2 := by
  unfold get
  rw [getCannonicalKey_complete hwf hf hnd hne he heq]
  exact mapGet_of_mem hwf.idsNodup he

/-- `has` on a key equivalent to a stored entry's key returns `true`. -/
theorem has_of_equiv_entry {C : SKM α β} {k : KeyObj α} {e : KeyObj α × β}
    (hwf : Wf C) (he : e ∈ C.entries) (heq : EquivElems e.1.elems k.elems)
    (hne : k.elems ≠ []) (hf : FreshKey C k) (hnd : k.elems.Nodup) :
    C.has k = true := by
  unfold has
  rw [getCannonicalKey_complete hwf hf hnd hne he heq]
  exact valueMapHas_of_mem he

theorem get_of_no_equiv {C : SKM α β} {k : KeyObj α} (hwf : Wf C)
    (hf : FreshKey C k) (hnd : k.elems.Nodup)
    (habs : ∀ e ∈ C.entries, ¬ EquivElems e.1.elems k.elems) : C.get k = none := by
  unfold get
  rw [getCannonicalKey_none hwf hf hnd habs]

theorem has_of_no_equiv {C : SKM α β} {k : KeyObj α} (hwf : Wf C)
    (hf : FreshKey C k) (hnd : k.elems.Nodup)
    (habs : ∀ e ∈ C.entries, ¬ EquivElems e.1.elems k.elems) : C.has k = false := by
  unfold has
  rw [getCannonicalKey_none hwf hf hnd habs]

end SKM

namespace SKM

variable {α β γ δ : Type} [DecidableEq α]

/-- `set` preserves the container invariants. -/
theorem wf_set {C : SKM α β} {k : KeyObj α} {v : β} (hwf : Wf C)
    (hnd : k.elems.Nodup) (hf : FreshKey C k) : Wf (C.set k v) := by
  cases hres : C.getCannonicalKey k with
  | some ck =>
    obtain ⟨⟨v0, hm0⟩, heq0⟩ := getCannonicalKey_sound hwf hf hnd hres
    have hpres : C.entries.any (fun e => decide (e.1 = ck)) = true := by
      rw [List.any_eq_true]
      exact ⟨(ck, v0), hm0, by simp⟩
    have hfst : (mapSet C.entries ck v).map (fun e => e.1) = C.entries.map (fun e => e.1) :=
      mapSet_map_fst_of_present v hpres
    have hkeysub : ∀ e' ∈ mapSet C.entries ck v, ∃ f ∈ C.entries, f.1 = e'.1 := by
      intro e' he'
      rcases mapSet_mem_inv he' with h1 | ⟨h1, _⟩
      · exact ⟨(ck, v0), hm0, by rw [h1]⟩
      · exact ⟨e', h1, rfl⟩
    have hkeysup : ∀ f ∈ C.entries, ∃ e' ∈ mapSet C.entries ck v, e'.1 = f.1 := by
      intro f hfm
      by_cases hfk : f.1 = ck
      · exact ⟨(ck, v), mapSet_mem_self v, hfk.symm⟩
      · exact ⟨f, mapSet_mem_other hfm hfk, rfl⟩
    rw [set_unfold_found hres]
    refine ⟨?_, ?_, ?_, ?_, ?_, ?_, ?_⟩
    · intro e' he'
      obtain ⟨f, hfm, hfe⟩ := hkeysub e' he'
      rw [← hfe]
      exact hwf.idsLt f hfm
    · have : (mapSet C.entries ck v).map (fun e => e.1.id) =
          C.entries.map (fun e => e.1.id) := by
        have h1 : (mapSet C.entries ck v).map (fun e => e.1.id) =
            ((mapSet C.entries ck v).map (fun e => e.1)).map (fun kk => kk.id) := by
          rw [List.map_map]; rfl
        have h2 : C.entries.map (fun e => e.1.id) =
            (C.entries.map (fun e => e.1)).map (fun kk => kk.id) := by
          rw [List.map_map]; rfl
        rw [h1, h2, hfst]
      rw [this]
      exact hwf.idsNodup
    · intro e' he'
      obtain ⟨f, hfm, hfe⟩ := hkeysub e' he'
      rw [← hfe]
      exact hwf.keysNodup f hfm
    · intro e1 he1 e2 he2 hne12 heq12
      obtain ⟨f1, hf1, hf1e⟩ := hkeysub e1 he1
      obtain ⟨f2, hf2, hf2e⟩ := hkeysub e2 he2
      rw [← hf1e, ← hf2e]
      apply hwf.uniq f1 hf1 f2 hf2
      · rw [hf1e]; exact hne12
      · rw [hf1e, hf2e]; exact heq12
    · exact hwf.rowKeysNodup
    · intro r hr
      obtain ⟨hrne, hrnd, hrmem⟩ := hwf.rows r hr
      refine ⟨hrne, hrnd, ?_⟩
      intro k' hk'
      obtain ⟨hxk, f, hfm, hfe⟩ := hrmem k' hk'
      obtain ⟨e', he', he'f⟩ := hkeysup f hfm
      exact ⟨hxk, e', he', by rw [he'f, hfe]⟩
    · intro e' he' x hx
      obtain ⟨f, hfm, hfe⟩ := hkeysub e' he'
      rw [← hfe] at hx ⊢
      exact hwf.rowFor f hfm x hx
  | none =>
    have habs : ∀ e ∈ C.entries, k.elems ≠ [] → ¬ EquivElems e.1.elems k.elems := by
      intro e he hkne hEq
      rw [getCannonicalKey_complete hwf hf hnd hkne he hEq] at hres
      cases hres
    have hent : (C.set k v).entries = C.entries ++ [(⟨C.nextId, k.elems⟩, v)] :=
      set_entries_none hwf hres
    have hidx : (C.set k v).index = registerAll C.index ⟨C.nextId, k.elems⟩ k.elems := by
      rw [set_unfold_none hres]
    have hnid : (C.set k v).nextId = C.nextId + 1 := by
      rw [set_unfold_none hres]
    have hidxnd : ((registerAll C.index (⟨C.nextId, k.elems⟩ : KeyObj α) k.elems).map
        (fun r => r.1)).Nodup := registerAll_keys_nodup hwf.rowKeysNodup
    refine ⟨?_, ?_, ?_, ?_, ?_, ?_, ?_⟩
    · intro e' he'
      rw [hent] at he'
      rw [hnid]
      rcases List.mem_append.1 he' with h1 | h1
      · exact Nat.lt_succ_of_lt (hwf.idsLt e' h1)
      · rw [List.mem_singleton.1 h1]
        exact Nat.lt_succ_self _
    · rw [hent, List.map_append, List.nodup_append]
      refine ⟨hwf.idsNodup, List.nodup_singleton _, ?_⟩
      intro i hi
      simp only [List.map_cons, List.map_nil, List.mem_singleton]
      intro hieq
      obtain ⟨e, he, hei⟩ := List.mem_map.1 hi
      have := hwf.idsLt e he
      rw [hei, hieq] at this
      exact lt_irrefl _ this
    · intro e' he'
      rw [hent] at he'
      rcases List.mem_append.1 he' with h1 | h1
      · exact hwf.keysNodup e' h1
      · rw [List.mem_singleton.1 h1]
        exact hnd
    · intro e1 he1 e2 he2 hne12 heq12
      rw [hent] at he1 he2
      rcases List.mem_append.1 he1 with h1 | h1 <;> rcases List.mem_append.1 he2 with h2 | h2
      · exact hwf.uniq e1 h1 e2 h2 hne12 heq12
      · exfalso
        rw [List.mem_singleton.1 h2] at heq12
        have hk : EquivElems e1.1.elems k.elems := heq12
        exact habs e1 h1 (hk.ne_nil hne12) hk
      · exfalso
        rw [List.mem_singleton.1 h1] at heq12 hne12
        have hk : EquivElems e2.1.elems k.elems := heq12.symm
        exact habs e2 h2 hne12 hk
      · rw [List.mem_singleton.1 h1, List.mem_singleton.1 h2]
    · rw [hidx]
      exact hidxnd
    · intro r hr
      rw [hidx] at hr
      have hg : indexGet (registerAll C.index ⟨C.nextId, k.elems⟩ k.elems) r.1 = some r.2 :=
        indexGet_of_mem hidxnd hr
      rw [indexGet_registerAll _ _ _ hnd] at hg
      by_cases hxk : r.1 ∈ k.elems
      · rw [if_pos hxk] at hg
        have hr2 : r.2 = ((indexGet C.index r.1).getD []) ++ [⟨C.nextId, k.elems⟩] :=
          (Option.some.injEq _ _ ▸ hg).symm
        have holdrow : ∀ k' ∈ (indexGet C.index r.1).getD [],
            r.1 ∈ k'.elems ∧ ∃ e ∈ C.entries, e.1 = k' := by
          intro k' hk'
          cases hgo : indexGet C.index r.1 with
          | none => rw [hgo] at hk'; cases hk'
          | some l =>
            rw [hgo] at hk'
            have hrm := indexGet_mem hgo
            obtain ⟨_, _, hmem⟩ := hwf.rows (r.1, l) hrm
            exact hmem k' (by simpa using hk')
        have holdnd : ((indexGet C.index r.1).getD []).Nodup := by
          cases hgo : indexGet C.index r.1 with
          | none => exact List.nodup_nil
          | some l =>
            have hrm := indexGet_mem hgo
            obtain ⟨_, hlnd, _⟩ := hwf.rows (r.1, l) hrm
            simpa using hlnd
        refine ⟨?_, ?_, ?_⟩
        · rw [hr2]
          simp
        · rw [hr2, List.nodup_append]
          refine ⟨holdnd, List.nodup_singleton _, ?_⟩
          intro k' hk'
          simp only [List.mem_singleton]
          intro hkeq
          obtain ⟨_, e, he, hek⟩ := holdrow k' hk'
          have := hwf.idsLt e he
          rw [hek, hkeq] at this
          exact lt_irrefl _ this
        · intro k' hk'
          rw [hr2] at hk'
          rcases List.mem_append.1 hk' with h1 | h1
          · obtain ⟨hxm, e, he, hek⟩ := holdrow k' h1
            refine ⟨hxm, e, ?_, hek⟩
            rw [hent]
            exact List.mem_append_left _ he
          · rw [List.mem_singleton.1 h1]
            refine ⟨hxk, (⟨C.nextId, k.elems⟩, v), ?_, rfl⟩
            rw [hent]
            exact List.mem_append_right _ (List.mem_singleton_self _)
      · rw [if_neg hxk] at hg
        have hrm := indexGet_mem hg
        obtain ⟨hrne, hrnd, hrmem⟩ := hwf.rows (r.1, r.2) hrm
        refine ⟨hrne, hrnd, ?_⟩
        intro k' hk'
        obtain ⟨hxm, e, he, hek⟩ := hrmem k' hk'
        refine ⟨hxm, e, ?_, hek⟩
        rw [hent]
        exact List.mem_append_left _ he
    · intro e' he' x hx
      rw [hent] at he'
      rw [hidx]
      rcases List.mem_append.1 he' with h1 | h1
      · obtain ⟨r, hr, hr1, hmem⟩ := hwf.rowFor e' h1 x hx
        have hgo : indexGet C.index x = some r.2 := by
          have h2 := indexGet_of_mem hwf.rowKeysNodup hr
          rw [hr1] at h2
          exact h2
        by_cases hxk : x ∈ k.elems
        · have hg : indexGet (registerAll C.index ⟨C.nextId, k.elems⟩ k.elems) x =
              some (r.2 ++ [⟨C.nextId, k.elems⟩]) := by
            rw [indexGet_registerAll _ _ _ hnd, if_pos hxk, hgo]
            rfl
          exact ⟨(x, r.2 ++ [⟨C.nextId, k.elems⟩]), indexGet_mem hg, rfl,
            List.mem_append_left _ hmem⟩
        · have hg : indexGet (registerAll C.index ⟨C.nextId, k.elems⟩ k.elems) x =
              some r.2 := by
            rw [indexGet_registerAll _ _ _ hnd, if_neg hxk]
            exact hgo
          exact ⟨(x, r.2), indexGet_mem hg, rfl, hmem⟩
      · rw [List.mem_singleton.1 h1] at hx ⊢
        have hxk : x ∈ k.elems := hx
        have hg : indexGet (registerAll C.index ⟨C.nextId, k.elems⟩ k.elems) x =
            some (((indexGet C.index x).getD []) ++ [⟨C.nextId, k.elems⟩]) := by
          rw [indexGet_registerAll _ _ _ hnd, if_pos hxk]
        exact ⟨(x, ((indexGet C.index x).getD []) ++ [⟨C.nextId, k.elems⟩]),
          indexGet_mem hg, rfl, List.mem_append_right _ (List.mem_singleton_self _)⟩

end SKM

namespace SKM

variable {α β γ δ : Type} [DecidableEq α]

theorem wf_empty : Wf (SKM.empty : SKM α β) := by
  refine ⟨?_, ?_, ?_, ?_, ?_, ?_, ?_⟩ <;> simp [SKM.empty]

theorem wf_clear {C : SKM α β} : Wf C.clear := by
  refine ⟨?_, ?_, ?_, ?_, ?_, ?_, ?_⟩ <;> simp [SKM.clear]

theorem delete_unfold_some {C : SKM α β} {k ck : KeyObj α}
    (hres : C.getCannonicalKey k = some ck) :
    C.delete k = (true,
      { C with
        index := unregisterAll C.index ck ck.elems,
        entries := C.entries.filter (fun e => decide (e.1 ≠ ck)) }) := by
  unfold delete
  rw [hres]

theorem delete_unfold_none {C : SKM α β} {k : KeyObj α}
    (hres : C.getCannonicalKey k = none) : C.delete k = (false, C) := by
  unfold delete
  rw [hres]

theorem mem_filter_ne {es : List (KeyObj α × β)} {ck : KeyObj α} {e : KeyObj α × β} :
    e ∈ es.filter (fun e => decide (e.1 ≠ ck)) ↔ e ∈ es ∧ e.1 ≠ ck := by
  rw [List.mem_filter]
  simp

/-- `delete` preserves the container invariants. -/
theorem wf_delete {C : SKM α β} {k : KeyObj α} (hwf : Wf C)
    (hnd : k.elems.Nodup) (hf : FreshKey C k) : Wf (C.delete k).2 := by
  cases hres : C.getCannonicalKey k with
  | none =>
    rw [delete_unfold_none hres]
    exact hwf
  | some ck =>
    obtain ⟨⟨v0, hm0⟩, heq0⟩ := getCannonicalKey_sound hwf hf hnd hres
    have hcknd : ck.elems.Nodup := hwf.keysNodup (ck, v0) hm0
    rw [delete_unfold_some hres]
    have hidxnd : ((unregisterAll C.index ck ck.elems).map (fun r => r.1)).Nodup :=
      unregisterAll_keys_nodup hwf.rowKeysNodup
    have hsub : (C.entries.filter (fun e => decide (e.1 ≠ ck))).Sublist C.entries :=
      List.filter_sublist C.entries
    refine ⟨?_, ?_, ?_, ?_, ?_, ?_, ?_⟩
    · intro e' he'
      exact hwf.idsLt e' (mem_filter_ne.1 he').1
    · exact ((hsub.map (fun e => e.1.id)).nodup) hwf.idsNodup
    · intro e' he'
      exact hwf.keysNodup e' (mem_filter_ne.1 he').1
    · intro e1 he1 e2 he2 hne12 heq12
      exact hwf.uniq e1 (mem_filter_ne.1 he1).1 e2 (mem_filter_ne.1 he2).1 hne12 heq12
    · exact hidxnd
    · intro r hr
      have hg : indexGet (unregisterAll C.index ck ck.elems) r.1 = some r.2 :=
        indexGet_of_mem hidxnd hr
      rw [indexGet_unregisterAll _ _ _ hcknd] at hg
      by_cases hxk : r.1 ∈ ck.elems
      · rw [if_pos hxk] at hg
        cases hgo : indexGet C.index r.1 with
        | none =>
          rw [hgo] at hg
          cases hg
        | some kl =>
          rw [hgo] at hg
          simp only [Option.some_bind] at hg
          by_cases hlen : (kl.filter (fun k' => decide (k' ≠ ck))).length ≠ 0
          · rw [if_pos hlen] at hg
            have hr2 : r.2 = kl.filter (fun k' => decide (k' ≠ ck)) :=
              (Option.some.injEq _ _ ▸ hg).symm
            obtain ⟨_, hklnd, hklmem⟩ := hwf.rows (r.1, kl) (indexGet_mem hgo)
            refine ⟨?_, ?_, ?_⟩
            · rw [hr2]
              intro h0
              rw [h0] at hlen
              exact hlen rfl
            · rw [hr2]
              exact hklnd.filter _
            · intro k' hk'
              rw [hr2] at hk'
              rw [List.mem_filter] at hk'
              obtain ⟨hk'm, hk'ne⟩ := hk'
              simp only [decide_eq_true_eq] at hk'ne
              obtain ⟨hxm, e, he, hek⟩ := hklmem k' hk'm
              refine ⟨hxm, e, ?_, hek⟩
              rw [mem_filter_ne]
              exact ⟨he, by rw [hek]; exact hk'ne⟩
          · rw [if_neg hlen] at hg
            cases hg
      · rw [if_neg hxk] at hg
        obtain ⟨hrne, hrnd, hrmem⟩ := hwf.rows (r.1, r.2) (indexGet_mem hg)
        refine ⟨hrne, hrnd, ?_⟩
        intro k' hk'
        obtain ⟨hxm, e, he, hek⟩ := hrmem k' hk'
        have hk'ck : k' ≠ ck := by
          intro h0
          rw [h0] at hxm
          exact hxk hxm
        refine ⟨hxm, e, ?_, hek⟩
        rw [mem_filter_ne]
        exact ⟨he, by rw [hek]; exact hk'ck⟩
    · intro e' he' x hx
      obtain ⟨he'm, he'ne⟩ := mem_filter_ne.1 he'
      obtain ⟨r, hr, hr1, hmem⟩ := hwf.rowFor e' he'm x hx
      have hgo : indexGet C.index x = some r.2 := by
        have h2 := indexGet_of_mem hwf.rowKeysNodup hr
        rw [hr1] at h2
        exact h2
      by_cases hxk : x ∈ ck.elems
      · have hmem' : e'.1 ∈ r.2.filter (fun k' => decide (k' ≠ ck)) := by
          rw [List.mem_filter]
          exact ⟨hmem, by simpa using he'ne⟩
        have hlen : (r.2.filter (fun k' => decide (k' ≠ ck))).length ≠ 0 := by
          intro h0
          rw [List.length_eq_zero] at h0
          rw [h0] at hmem'
          cases hmem'
        have hg : indexGet (unregisterAll C.index ck ck.elems) x =
            some (r.2.filter (fun k' => decide (k' ≠ ck))) := by
          rw [indexGet_unregisterAll _ _ _ hcknd, if_pos hxk, hgo]
          simp only [Option.some_bind]
          rw [if_pos hlen]
        exact ⟨(x, r.2.filter (fun k' => decide (k' ≠ ck))), indexGet_mem hg, rfl, hmem'⟩
      · have hg : indexGet (unregisterAll C.index ck ck.elems) x = some r.2 := by
          rw [indexGet_unregisterAll _ _ _ hcknd, if_neg hxk]
          exact hgo
        exact ⟨(x, r.2), indexGet_mem hg, rfl, hmem⟩

end SKM

namespace SKM

variable {α β γ δ : Type} [DecidableEq α]

/-- The ids of the listed keys grow from `n`: each key's id is at least the
bound, and the bound advances past it. -/
def IdsChainFrom (n : Nat) : List (KeyObj α × β) → Prop
  | [] => True
  | kv :: rest => n ≤ kv.1.id ∧ IdsChainFrom (kv.1.id + 1) rest

theorem freshCopies_chain (n : Nat) (es : List (KeyObj α × β)) :
    IdsChainFrom n (freshCopies n es) := by
  induction es generalizing n with
  | nil => exact trivial
  | cons e rest ih =>
    exact ⟨Nat.le_refl n, ih (n + 1)⟩

theorem freshCopies_mem {n : Nat} {es : List (KeyObj α × β)} {kv : KeyObj α × β}
    (h : kv ∈ freshCopies n es) :
    ∃ e ∈ es, kv.1.elems = e.1.elems ∧ kv.2 = e.2 ∧ n ≤ kv.1.id := by
  induction es generalizing n with
  | nil => cases h
  | cons e rest ih =>
    rcases List.mem_cons.1 h with h1 | h1
    · exact ⟨e, List.mem_cons_self e rest, by rw [h1]; rfl, by rw [h1],
        by rw [h1]; exact Nat.le_refl n⟩
    · obtain ⟨f, hf, h2, h3, h4⟩ := ih h1
      exact ⟨f, List.mem_cons_of_mem e hf, h2, h3, Nat.le_of_succ_le h4⟩

theorem freshCopies_mem_of {n : Nat} {es : List (KeyObj α × β)} {e : KeyObj α × β}
    (h : e ∈ es) :
    ∃ kv ∈ freshCopies n es, kv.1.elems = e.1.elems ∧ kv.2 = e.2 := by
  induction es generalizing n with
  | nil => cases h
  | cons a rest ih =>
    rcases List.mem_cons.1 h with h1 | h1
    · exact ⟨(createUserFacingKey n a.1, a.2), List.mem_cons_self _ _, by rw [h1]; rfl,
        by rw [h1]⟩
    · obtain ⟨kv, hkv, h2, h3⟩ := @ih (n + 1) h1
      exact ⟨kv, List.mem_cons_of_mem _ hkv, h2, h3⟩

theorem freshCopies_pairwise (R : List α → List α → Prop) {n : Nat}
    {es : List (KeyObj α × β)}
    (h : es.Pairwise (fun a b => R a.1.elems b.1.elems)) :
    (freshCopies n es).Pairwise (fun a b => R a.1.elems b.1.elems) := by
  induction es generalizing n with
  | nil => exact List.Pairwise.nil
  | cons e rest ih =>
    obtain ⟨hhead, htail⟩ := List.pairwise_cons.1 h
    refine List.pairwise_cons.2 ⟨?_, ih htail⟩
    intro kv hkv
    obtain ⟨f, hf, hfe, _, _⟩ := freshCopies_mem hkv
    rw [hfe]
    exact hhead f hf

theorem set_nextId_le {C : SKM α β} (k : KeyObj α) (v : β) :
    (C.set k v).nextId ≤ C.nextId + 1 := by
  cases hres : C.getCannonicalKey k with
  | some ck =>
    rw [set_unfold_found hres]
    exact Nat.le_succ _
  | none =>
    rw [set_unfold_none hres]

theorem fresh_of_le {C : SKM α β} {k : KeyObj α} (hwf : Wf C)
    (h : C.nextId ≤ k.id) : FreshKey C k := by
  intro e he
  exact Nat.ne_of_lt (Nat.lt_of_lt_of_le (hwf.idsLt e he) h)

/-- A stored entry whose membership differs from the inserted key's survives
`set` unchanged. -/
theorem set_preserves_entry {C : SKM α β} {k : KeyObj α} {v : β} (hwf : Wf C)
    (hnd : k.elems.Nodup) (hf : FreshKey C k) {e : KeyObj α × β} (he : e ∈ C.entries)
    (hne : ¬ EquivElems e.1.elems k.elems) : e ∈ (C.set k v).entries := by
  cases hres : C.getCannonicalKey k with
  | some ck =>
    obtain ⟨⟨v0, hm0⟩, heq0⟩ := getCannonicalKey_sound hwf hf hnd hres
    rw [set_unfold_found hres]
    apply mapSet_mem_other he
    intro h0
    rw [h0] at hne
    exact hne heq0
  | none =>
    rw [set_entries_none hwf hres]
    exact List.mem_append_left _ he

/-- After `set` with a key not equivalent to `m`, no entry equivalent to `m`
appears unless one was already present. -/
theorem set_no_equiv {C : SKM α β} {k : KeyObj α} {v : β} {m : List α} (hwf : Wf C)
    (hnd : k.elems.Nodup) (hf : FreshKey C k)
    (hm : ∀ e ∈ C.entries, ¬ EquivElems e.1.elems m)
    (hk : ¬ EquivElems k.elems m) :
    ∀ e' ∈ (C.set k v).entries, ¬ EquivElems e'.1.elems m := by
  intro e' he' hEq
  rcases set_mem_inv hwf hnd hf he' with ⟨f, hfm, hfe⟩ | h1
  · rw [hfe] at hEq
    exact hm f hfm hEq
  · rw [h1] at hEq
    exact hk hEq

end SKM

namespace SKM

variable {α β γ δ : Type} [DecidableEq α]

/-- Common shape of the `filter` / `mapOver` population loop: each yielded
entry is either skipped or inserted into the result through `set`. -/
def derivedStep (q : β → KeyObj α → Bool) (g : β → KeyObj α → γ)
    (result : SKM α γ) (kv : KeyObj α × β) : SKM α γ :=
  if q kv.2 kv.1 then result.set kv.1 (g kv.2 kv.1) else result

theorem filter_eq_derivedFold (C : SKM α β) (p : β → KeyObj α → Bool) :
    C.filter p = C.entriesList.foldl (derivedStep p (fun v _ => v)) SKM.empty := rfl

theorem mapOver_eq_derivedFold (C : SKM α β) (f : β → KeyObj α → γ) :
    C.mapOver f = C.entriesList.foldl (derivedStep (fun _ _ => true) f) SKM.empty := rfl

/-- Folding `derivedStep` from a well-formed accumulator whose allocator is
below the id chain preserves well-formedness. -/
theorem wf_derivedFold {q : β → KeyObj α → Bool} {g : β → KeyObj α → γ}
    (l : List (KeyObj α × β)) (acc : SKM α γ) (n : Nat) (hwf : Wf acc)
    (hle : acc.nextId ≤ n) (hch : IdsChainFrom n l)
    (hnd : ∀ kv ∈ l, kv.1.elems.Nodup) :
    Wf (l.foldl (derivedStep q g) acc) := by
  induction l generalizing acc n with
  | nil => exact hwf
  | cons kv rest ih =>
    obtain ⟨hn, hch'⟩ := hch
    have hfr : FreshKey acc kv.1 := fresh_of_le hwf (Nat.le_trans hle hn)
    have hnd0 : kv.1.elems.Nodup := hnd kv (List.mem_cons_self kv rest)
    have hnd' : ∀ kv' ∈ rest, kv'.1.elems.Nodup :=
      fun kv' h => hnd kv' (List.mem_cons_of_mem kv h)
    rw [List.foldl_cons]
    unfold derivedStep
    by_cases hq : q kv.2 kv.1 = true
    · rw [if_pos hq]
      exact ih (acc.set kv.1 (g kv.2 kv.1)) (kv.1.id + 1) (wf_set hwf hnd0 hfr)
        (Nat.le_trans (set_nextId_le _ _) (Nat.succ_le_succ (Nat.le_trans hle hn)))
        hch' hnd'
    · rw [if_neg hq]
      exact ih acc (kv.1.id + 1) hwf
        (Nat.le_trans hle (Nat.le_trans hn (Nat.le_succ _))) hch' hnd'

/-- Folding `derivedStep` over keys not equivalent to `m` preserves a stored
entry with membership `m`. -/
theorem derivedFold_retains {q : β → KeyObj α → Bool} {g : β → KeyObj α → γ}
    {m : List α} {w : γ}
    (l : List (KeyObj α × β)) (acc : SKM α γ) (n : Nat) (hwf : Wf acc)
    (hle : acc.nextId ≤ n) (hch : IdsChainFrom n l)
    (hnd : ∀ kv ∈ l, kv.1.elems.Nodup)
    (hnm : ∀ kv ∈ l, ¬ EquivElems kv.1.elems m)
    (hx : ∃ e ∈ acc.entries, EquivElems e.1.elems m ∧ e.2 = w) :
    ∃ e ∈ (l.foldl (derivedStep q g) acc).entries, EquivElems e.1.elems m ∧ e.2 = w := by
  induction l generalizing acc n with
  | nil => exact hx
  | cons kv rest ih =>
    obtain ⟨hn, hch'⟩ := hch
    have hfr : FreshKey acc kv.1 := fresh_of_le hwf (Nat.le_trans hle hn)
    have hnd0 : kv.1.elems.Nodup := hnd kv (List.mem_cons_self kv rest)
    have hnd' : ∀ kv' ∈ rest, kv'.1.elems.Nodup :=
      fun kv' h => hnd kv' (List.mem_cons_of_mem kv h)
    have hnm' : ∀ kv' ∈ rest, ¬ EquivElems kv'.1.elems m :=
      fun kv' h => hnm kv' (List.mem_cons_of_mem kv h)
    rw [List.foldl_cons]
    unfold derivedStep
    by_cases hq : q kv.2 kv.1 = true
    · rw [if_pos hq]
      obtain ⟨e, he, heq, hev⟩ := hx
      refine ih (acc.set kv.1 (g kv.2 kv.1)) (kv.1.id + 1) (wf_set hwf hnd0 hfr)
        (Nat.le_trans (set_nextId_le _ _) (Nat.succ_le_succ (Nat.le_trans hle hn)))
        hch' hnd' hnm' ⟨e, ?_, heq, hev⟩
      apply set_preserves_entry hwf hnd0 hfr he
      intro hEq
      exact hnm kv (List.mem_cons_self kv rest) (hEq.symm.trans heq)
    · rw [if_neg hq]
      exact ih acc (kv.1.id + 1) hwf
        (Nat.le_trans hle (Nat.le_trans hn (Nat.le_succ _))) hch' hnd' hnm' hx

/-- When the yielded entries have pairwise inequivalent nonempty memberships,
an entry of the fold's input that is inserted (its guard holds) produces a
stored entry with its membership and its transformed value. -/
theorem derivedFold_inserts {q : β → KeyObj α → Bool} {g : β → KeyObj α → γ}
    {m : List α} {kv0 : KeyObj α × β}
    (l : List (KeyObj α × β)) (acc : SKM α γ) (n : Nat) (hwf : Wf acc)
    (hle : acc.nextId ≤ n) (hch : IdsChainFrom n l)
    (hnd : ∀ kv ∈ l, kv.1.elems.Nodup)
    (hpw : l.Pairwise (fun a b => a.1.elems ≠ [] → ¬ EquivElems a.1.elems b.1.elems))
    (hmne : m ≠ [])
    (hacc : ∀ e ∈ acc.entries, ¬ EquivElems e.1.elems m)
    (hkv0 : kv0 ∈ l) (hq0 : q kv0.2 kv0.1 = true) (heq0 : EquivElems kv0.1.elems m) :
    ∃ e ∈ (l.foldl (derivedStep q g) acc).entries,
      EquivElems e.1.elems m ∧ e.2 = g kv0.2 kv0.1 := by
  induction l generalizing acc n with
  | nil => cases hkv0
  | cons kv rest ih =>
    obtain ⟨hn, hch'⟩ := hch
    have hfr : FreshKey acc kv.1 := fresh_of_le hwf (Nat.le_trans hle hn)
    have hnd0 : kv.1.elems.Nodup := hnd kv (List.mem_cons_self kv rest)
    have hnd' : ∀ kv' ∈ rest, kv'.1.elems.Nodup :=
      fun kv' h => hnd kv' (List.mem_cons_of_mem kv h)
    obtain ⟨hpwh, hpw'⟩ := List.pairwise_cons.1 hpw
    rw [List.foldl_cons]
    rcases List.mem_cons.1 hkv0 with hkv0h | hkv0t
    · subst hkv0h
      unfold derivedStep
      rw [if_pos hq0]
      have hkvne : kv0.1.elems ≠ [] := fun h0 => hmne (heq0.eq_nil h0)
      have hrest : ∀ kv' ∈ rest, ¬ EquivElems kv'.1.elems m := by
        intro kv' h hEq
        exact hpwh kv' h hkvne (heq0.trans hEq.symm)
      obtain ⟨e, he, heq, hev⟩ := set_mem_entry hwf hnd0 hfr (g kv0.2 kv0.1)
      exact derivedFold_retains rest _ (kv0.1.id + 1) (wf_set hwf hnd0 hfr)
        (Nat.le_trans (set_nextId_le _ _) (Nat.succ_le_succ (Nat.le_trans hle hn)))
        hch' hnd' hrest ⟨e, he, heq.trans heq0, hev⟩
    · have hkne : ¬ EquivElems kv.1.elems m := by
        intro hEq
        by_cases h0 : kv.1.elems = []
        · rw [h0] at hEq
          exact hmne (hEq.eq_nil rfl)
        · exact hpwh kv0 hkv0t h0 (hEq.trans heq0.symm)
      unfold derivedStep
      by_cases hq : q kv.2 kv.1 = true
      · rw [if_pos hq]
        exact ih _ (kv.1.id + 1) (wf_set hwf hnd0 hfr)
          (Nat.le_trans (set_nextId_le _ _) (Nat.succ_le_succ (Nat.le_trans hle hn)))
          hch' hnd' hpw' (set_no_equiv hwf hnd0 hfr hacc hkne) hkv0t
      · rw [if_neg hq]
        exact ih acc (kv.1.id + 1) hwf
          (Nat.le_trans hle (Nat.le_trans hn (Nat.le_succ _))) hch' hnd' hpw' hacc hkv0t

end SKM

namespace SKM

variable {α β γ δ : Type} [DecidableEq α]

/-- Distinct stored entries of a well-formed container have inequivalent
memberships (apart from the empty ones). -/
theorem wf_entries_pairwise {C : SKM α β} (hwf : Wf C) :
    C.entries.Pairwise (fun a b => a.1.elems ≠ [] → ¬ EquivElems a.1.elems b.1.elems) := by
  have hids : C.entries.Pairwise (fun a b => a.1.id ≠ b.1.id) :=
    List.pairwise_map.1 hwf.idsNodup
  refine List.Pairwise.imp_of_mem ?_ hids
  intro a b ha hb hab hne hEq
  exact hab (congrArg KeyObj.id (hwf.uniq a ha b hb hne hEq))

theorem entriesList_chain (C : SKM α β) : IdsChainFrom C.nextId C.entriesList :=
  freshCopies_chain C.nextId C.entries

theorem entriesList_nodup {C : SKM α β} (hwf : Wf C) :
    ∀ kv ∈ C.entriesList, kv.1.elems.Nodup := by
  intro kv hkv
  obtain ⟨e, he, hee, _, _⟩ := freshCopies_mem hkv
  rw [hee]
  exact hwf.keysNodup e he

theorem entriesList_pairwise {C : SKM α β} (hwf : Wf C) :
    C.entriesList.Pairwise
      (fun a b => a.1.elems ≠ [] → ¬ EquivElems a.1.elems b.1.elems) :=
  freshCopies_pairwise (fun l1 l2 => l1 ≠ [] → ¬ EquivElems l1 l2)
    (wf_entries_pairwise hwf)

/-- `filter` produces a well-formed container. -/
theorem wf_filter {C : SKM α β} {p : β → KeyObj α → Bool} (hwf : Wf C) :
    Wf (C.filter p) := by
  rw [filter_eq_derivedFold]
  exact wf_derivedFold _ _ C.nextId wf_empty (Nat.zero_le _) (entriesList_chain C)
    (entriesList_nodup hwf)

/-- `mapOver` produces a well-formed container. -/
theorem wf_mapOver {C : SKM α β} {f : β → KeyObj α → γ} (hwf : Wf C) :
    Wf (C.mapOver f) := by
  rw [mapOver_eq_derivedFold]
  exact wf_derivedFold _ _ C.nextId wf_empty (Nat.zero_le _) (entriesList_chain C)
    (entriesList_nodup hwf)

/-- Every reachable container state is well-formed. -/
theorem wf_reachable {C : SKM α β} (h : Reachable C) : Wf C := by
  induction h with
  | empty => exact wf_empty
  | set _ hnd hf ih => exact wf_set ih hnd hf
  | del _ hnd hf ih => exact wf_delete ih hnd hf
  | clear _ _ => exact wf_clear
  | filter _ ih => exact wf_filter ih
  | mapOver _ ih => exact wf_mapOver ih

/-- A yielded entry whose guard holds gives a stored entry of `filter`'s
result with its membership and value (nonempty keys). -/
theorem filter_mem_entry {C : SKM α β} {p : β → KeyObj α → Bool}
    {kv : KeyObj α × β} (hwf : Wf C) (hkv : kv ∈ C.entriesList)
    (hne : kv.1.elems ≠ []) (hp : p kv.2 kv.1 = true) :
    ∃ e ∈ (C.filter p).entries, EquivElems e.1.elems kv.1.elems ∧ e.2 = kv.2 := by
  rw [filter_eq_derivedFold]
  exact derivedFold_inserts _ _ C.nextId wf_empty (Nat.zero_le _) (entriesList_chain C)
    (entriesList_nodup hwf) (entriesList_pairwise hwf) hne (by intro e he; cases he)
    hkv hp (EquivElems.refl _)

/-- A yielded entry gives a stored entry of `mapOver`'s result with its
membership and the transformed value (nonempty keys). -/
theorem mapOver_mem_entry {C : SKM α β} {f : β → KeyObj α → γ}
    {kv : KeyObj α × β} (hwf : Wf C) (hkv : kv ∈ C.entriesList)
    (hne : kv.1.elems ≠ []) :
    ∃ e ∈ (C.mapOver f).entries, EquivElems e.1.elems kv.1.elems ∧ e.2 = f kv.2 kv.1 := by
  rw [mapOver_eq_derivedFold]
  exact derivedFold_inserts _ _ C.nextId wf_empty (Nat.zero_le _) (entriesList_chain C)
    (entriesList_nodup hwf) (entriesList_pairwise hwf) hne (by intro e he; cases he)
    hkv rfl (EquivElems.refl _)

end SKM

namespace SKM

variable {α β γ δ : Type} [DecidableEq α]

/-- C1 (counterexample): the claim quantifies over all keys with equal
membership, but for the empty key `set` stores an entry that `get`/`has`
never find: after `C.set(K1, v)` with `K1 = K2 = ∅`, `get(K2)` is not `v`
and `has(K2)` is `false`. -/
theorem equivInvariance_fails_on_empty_key :
    ((SKM.empty : SKM Nat Nat).set ⟨100, []⟩ 1).get ⟨101, []⟩ ≠ some 1 ∧
      ((SKM.empty : SKM Nat Nat).set ⟨100, []⟩ 1).has ⟨101, []⟩ = false := by
  decide

/-- C1 (amended): equivalence-invariance for keys with at least one element:
for every well-formed container `C`, every value `v`, and all caller-supplied
duplicate-free keys `K1`, `K2` with the same nonempty element membership,
after `C.set(K1, v)` the calls `C.get(K2)` return `v` and `C.has(K2)` return
`true`. -/
theorem equivInvariance_nonempty {C : SKM α β} {k1 k2 : KeyObj α} {v : β}
    (hwf : Wf C) (heq : EquivElems k1.elems k2.elems) (hne : k1.elems ≠ [])
    (hnd1 : k1.elems.Nodup) (hnd2 : k2.elems.Nodup)
    (hf1 : FreshKey C k1) (hf2 : FreshKey (C.set k1 v) k2) :
    (C.set k1 v).get k2 = some v ∧ (C.set k1 v).has k2 = true := by
  have hwf' : Wf (C.set k1 v) := wf_set hwf hnd1 hf1
  obtain ⟨e, he, heqe, hev⟩ := set_mem_entry hwf hnd1 hf1 v
  have heq2 : EquivElems e.1.elems k2.elems := heqe.trans heq
  have hne2 : k2.elems ≠ [] := heq.ne_nil hne
  constructor
  · rw [get_of_equiv_entry hwf' he heq2 hne2 hf2 hnd2, hev]
  · exact has_of_equiv_entry hwf' he heq2 hne2 hf2 hnd2

theorem equivInvariance_nonempty_witness :
    ((SKM.empty : SKM Nat Nat).set ⟨100, [1, 2]⟩ 7).get ⟨101, [2, 1]⟩ = some 7 ∧
      ((SKM.empty : SKM Nat Nat).set ⟨100, [1, 2]⟩ 7).has ⟨101, [2, 1]⟩ = true :=
  equivInvariance_nonempty (by decide) (by decide) (by decide) (by decide) (by decide)
    (by decide) (by decide)

/-- C2: cardinality discrimination: when `K1`'s elements are a strict subset
of `K2`'s and the container stores no key equivalent to `K2`, `set(K1, v1)`
followed by `get(K2)` yields `none` and `has(K2)` yields `false` — a
candidate never matches a stored key that is a proper subset of it. -/
theorem cardinalityDiscrimination {C : SKM α β} {k1 k2 : KeyObj α} {v1 : β}
    (hwf : Wf C) (hsub : ∀ x ∈ k1.elems, x ∈ k2.elems)
    (hstrict : ∃ y ∈ k2.elems, y ∉ k1.elems)
    (hnd1 : k1.elems.Nodup) (hnd2 : k2.elems.Nodup)
    (hnoK2 : ∀ e ∈ C.entries, ¬ EquivElems e.1.elems k2.elems)
    (hf1 : FreshKey C k1) (hf2 : FreshKey (C.set k1 v1) k2) :
    (C.set k1 v1).get k2 = none ∧ (C.set k1 v1).has k2 = false := by
  have hwf' : Wf (C.set k1 v1) := wf_set hwf hnd1 hf1
  have hk1k2 : ¬ EquivElems k1.elems k2.elems := by
    obtain ⟨y, hy2, hy1⟩ := hstrict
    intro hEq
    exact hy1 ((hEq y).2 hy2)
  have habs : ∀ e' ∈ (C.set k1 v1).entries, ¬ EquivElems e'.1.elems k2.elems := by
    intro e' he' hEq
    rcases set_mem_inv hwf hnd1 hf1 he' with ⟨f, hfm, hfe⟩ | h1
    · rw [hfe] at hEq
      exact hnoK2 f hfm hEq
    · rw [h1] at hEq
      exact hk1k2 hEq
  exact ⟨get_of_no_equiv hwf' hf2 hnd2 habs, has_of_no_equiv hwf' hf2 hnd2 habs⟩

theorem cardinalityDiscrimination_witness :
    ((SKM.empty : SKM Nat Nat).set ⟨100, [1]⟩ 5).get ⟨101, [1, 2]⟩ = none ∧
      ((SKM.empty : SKM Nat Nat).set ⟨100, [1]⟩ 5).has ⟨101, [1, 2]⟩ = false :=
  cardinalityDiscrimination (by decide) (by decide) ⟨2, by decide, by decide⟩
    (by decide) (by decide) (by decide) (by decide) (by decide)

/-- C3 (counterexample): the claim includes the empty key, but repeated `set`
with empty keys grows `size` on every call (here to `2` after two calls) and
a subsequent `get` with an equivalent (empty) key returns `none`, not the
most recent value. -/
theorem upsertIdempotence_fails_on_empty_key :
    (((SKM.empty : SKM Nat Nat).set ⟨100, []⟩ 1).set ⟨101, []⟩ 2).size = 2 ∧
      (((SKM.empty : SKM Nat Nat).set ⟨100, []⟩ 1).set ⟨101, []⟩ 2).get ⟨102, []⟩ = none := by
  decide

/-- C3 (amended): upsert idempotence for keys with at least one element: a
second `set` with an equivalent nonempty key leaves `size` unchanged, and a
subsequent `get` with an equivalent key returns the value of the most recent
`set`. -/
theorem upsertIdempotence_nonempty {C : SKM α β} {k1 k2 k3 : KeyObj α} {v1 v2 : β}
    (hwf : Wf C) (heq12 : EquivElems k1.elems k2.elems)
    (heq13 : EquivElems k1.elems k3.elems) (hne : k1.elems ≠ [])
    (hnd1 : k1.elems.Nodup) (hnd2 : k2.elems.Nodup) (hnd3 : k3.elems.Nodup)
    (hf1 : FreshKey C k1) (hf2 : FreshKey (C.set k1 v1) k2)
    (hf3 : FreshKey ((C.set k1 v1).set k2 v2) k3) :
    ((C.set k1 v1).set k2 v2).size = (C.set k1 v1).size ∧
      ((C.set k1 v1).set k2 v2).get k3 = some v2 := by
  have hwf1 : Wf (C.set k1 v1) := wf_set hwf hnd1 hf1
  have hwf2 : Wf ((C.set k1 v1).set k2 v2) := wf_set hwf1 hnd2 hf2
  obtain ⟨e, he, heqe, _⟩ := set_mem_entry hwf hnd1 hf1 v1
  have hne2 : k2.elems ≠ [] := heq12.ne_nil hne
  have hres2 : (C.set k1 v1).getCannonicalKey k2 = some e.1 :=
    getCannonicalKey_complete hwf1 hf2 hnd2 hne2 he (heqe.trans heq12)
  constructor
  · rw [set_unfold_found hres2]
    unfold size
    exact mapSet_length_of_present v2
      (by rw [List.any_eq_true]; exact ⟨e, he, by simp⟩)
  · obtain ⟨e2, he2, heqe2, hev2⟩ := set_mem_entry hwf1 hnd2 hf2 v2
    have heq23 : EquivElems e2.1.elems k3.elems :=
      heqe2.trans (heq12.symm.trans heq13)
    rw [get_of_equiv_entry hwf2 he2 heq23 (heq13.ne_nil hne) hf3 hnd3, hev2]

theorem upsertIdempotence_nonempty_witness :
    (((SKM.empty : SKM Nat Nat).set ⟨100, [1, 2]⟩ 3).set ⟨101, [2, 1]⟩ 4).size =
        ((SKM.empty : SKM Nat Nat).set ⟨100, [1, 2]⟩ 3).size ∧
      (((SKM.empty : SKM Nat Nat).set ⟨100, [1, 2]⟩ 3).set ⟨101, [2, 1]⟩ 4).get
        ⟨102, [1, 2]⟩ = some 4 :=
  upsertIdempotence_nonempty (by decide) (by decide) (by decide) (by decide) (by decide)
    (by decide) (by decide) (by decide) (by decide) (by decide)

/-- C4 (counterexample): inserting two (distinct) empty keys produces a
reachable state whose backing map stores two canonical keys with identical
(empty) element membership, refuting uniqueness over all reachable states. -/
theorem canonicalUniqueness_fails_on_empty_key :
    Reachable (((SKM.empty : SKM Nat Nat).set ⟨100, []⟩ 1).set ⟨101, []⟩ 2) ∧
      ((((SKM.empty : SKM Nat Nat).set ⟨100, []⟩ 1).set ⟨101, []⟩ 2).entries.map
        (fun e => e.1.elems)) = [[], []] := by
  constructor
  · exact Reachable.set (Reachable.set Reachable.empty (by decide) (by decide))
      (by decide) (by decide)
  · decide

/-- C4 (amended): canonical-key uniqueness for nonempty memberships: in every
state reachable through the public operations, two stored entries whose keys
have identical nonempty element membership are the same entry. -/
theorem canonicalUniqueness_nonempty {C : SKM α β} (h : Reachable C) :
    ∀ e1 ∈ C.entries, ∀ e2 ∈ C.entries, e1.1.elems ≠ [] →
      EquivElems e1.1.elems e2.1.elems → e1 = e2 := by
  intro e1 he1 e2 he2 hne hEq
  have hwf := wf_reachable h
  have hk : e1.1 = e2.1 := hwf.uniq e1 he1 e2 he2 hne hEq
  exact nodup_map_eq_of_mem hwf.idsNodup he1 he2 (congrArg KeyObj.id hk)

theorem canonicalUniqueness_nonempty_witness :
    ((⟨0, [1, 2]⟩ : KeyObj Nat), (5 : Nat)) = ((⟨0, [1, 2]⟩ : KeyObj Nat), (5 : Nat)) :=
  @canonicalUniqueness_nonempty Nat Nat _ ((SKM.empty : SKM Nat Nat).set ⟨100, [1, 2]⟩ 5)
    (Reachable.set Reachable.empty (by decide) (by decide))
    (⟨0, [1, 2]⟩, 5) (by decide) (⟨0, [1, 2]⟩, 5) (by decide) (by decide) (by decide)

end SKM

namespace SKM

variable {α β γ δ : Type} [DecidableEq α]

/-- C5: index bidirectional consistency: in every reachable state, every index
row is nonempty and contains exactly the live canonical keys having the row's
element (so no row retains a reference to a deleted canonical key), and every
element of a stored canonical key has a row containing that key. -/
theorem indexBidirectionalConsistency {C : SKM α β} (h : Reachable C) :
    (∀ r ∈ C.index, r.2 ≠ [] ∧
      ∀ k' ∈ r.2, (∃ e ∈ C.entries, e.1 = k') ∧ r.1 ∈ k'.elems) ∧
    (∀ e ∈ C.entries, ∀ x ∈ e.1.elems, ∃ r ∈ C.index, r.1 = x ∧ e.1 ∈ r.2) := by
  have hwf := wf_reachable h
  refine ⟨?_, hwf.rowFor⟩
  intro r hr
  obtain ⟨hne, _, hmem⟩ := hwf.rows r hr
  exact ⟨hne, fun k' hk' => ⟨(hmem k' hk').2, (hmem k' hk').1⟩⟩

theorem indexBidirectionalConsistency_witness :
    (1 : Nat) ∈ (⟨0, [1, 2]⟩ : KeyObj Nat).elems :=
  (((indexBidirectionalConsistency
    (Reachable.set Reachable.empty (by decide) (by decide) :
      Reachable ((SKM.empty : SKM Nat Nat).set ⟨100, [1, 2]⟩ 7))).1
    (1, [⟨0, [1, 2]⟩]) (by decide)).2 ⟨0, [1, 2]⟩ (by decide)).2

/-- C6: empty-key resolution is always-not-found: in every reachable state,
for every caller-supplied key with zero elements, `get` returns `none`, `has`
returns `false`, and `delete` returns `false` leaving the state unchanged. -/
theorem emptyKeyAlwaysNotFound {C : SKM α β} {k : KeyObj α} (h : Reachable C)
    (he : k.elems = []) (hf : FreshKey C k) :
    C.get k = none ∧ C.has k = false ∧ C.delete k = (false, C) := by
  have hres := getCannonicalKey_empty hf he
  refine ⟨?_, ?_, ?_⟩
  · unfold get
    rw [hres]
  · unfold has
    rw [hres]
  · unfold delete
    rw [hres]

theorem emptyKeyAlwaysNotFound_witness :
    ((SKM.empty : SKM Nat Nat).set ⟨100, [1]⟩ 5).get ⟨101, []⟩ = none ∧
      ((SKM.empty : SKM Nat Nat).set ⟨100, [1]⟩ 5).has ⟨101, []⟩ = false ∧
      ((SKM.empty : SKM Nat Nat).set ⟨100, [1]⟩ 5).delete ⟨101, []⟩ =
        (false, (SKM.empty : SKM Nat Nat).set ⟨100, [1]⟩ 5) :=
  emptyKeyAlwaysNotFound (Reachable.set Reachable.empty (by decide) (by decide))
    (by decide) (by decide)

/-- C7 (counterexample): a filtered container can retain an empty-keyed entry
(here with value `5`), and `get` with a key equivalent to that retained key
returns `none` rather than the retained value, refuting equivalence-invariance
for the derived container's entries as claimed for all keys. -/
theorem derivativeIsolation_fails_on_empty_key :
    (((SKM.empty : SKM Nat Nat).set ⟨100, []⟩ 5).filter (fun _ _ => true)).size = 1 ∧
      (((SKM.empty : SKM Nat Nat).set ⟨100, []⟩ 5).filter (fun _ _ => true)).valuesList = [5] ∧
      (((SKM.empty : SKM Nat Nat).set ⟨100, []⟩ 5).filter (fun _ _ => true)).get ⟨101, []⟩ =
        none := by
  decide

/-- C7 (amended): derivative isolation for nonempty keys: `filter` and
`mapOver` build fresh well-formed containers through `set`, so a yielded
entry with a nonempty key that is retained (respectively transformed) is
found by `get` with any equivalent caller-supplied key, with the retained
(respectively transformed) value.  Mutation isolation holds by construction:
the derived container is a new value sharing no mutable state with the
source, whose operations never touch the source's `entries` or `index`. -/
theorem derivativeIsolation_nonempty {C : SKM α β} {p : β → KeyObj α → Bool}
    {f : β → KeyObj α → γ} {kv : KeyObj α × β} {k' : KeyObj α}
    (hwf : Wf C) (hkv : kv ∈ C.entriesList) (hne : kv.1.elems ≠ [])
    (heq : EquivElems k'.elems kv.1.elems) (hnd' : k'.elems.Nodup)
    (hp : p kv.2 kv.1 = true)
    (hff : FreshKey (C.filter p) k') (hfm : FreshKey (C.mapOver f) k') :
    (C.filter p).get k' = some kv.2 ∧ (C.mapOver f).get k' = some (f kv.2 kv.1) ∧
      Wf (C.filter p) ∧ Wf (C.mapOver f) := by
  have hwfF : Wf (C.filter p) := wf_filter hwf
  have hwfM : Wf (C.mapOver f) := wf_mapOver hwf
  have hk'ne : k'.elems ≠ [] := fun h0 => hne (heq.eq_nil h0)
  obtain ⟨e1, he1, heq1, hev1⟩ := filter_mem_entry hwf hkv hne hp
  have h2 : ∃ e ∈ (C.mapOver f).entries, EquivElems e.1.elems kv.1.elems ∧
      e.2 = f kv.2 kv.1 := mapOver_mem_entry hwf hkv hne
  obtain ⟨e2, he2, heq2, hev2⟩ := h2
  refine ⟨?_, ?_, hwfF, hwfM⟩
  · rw [get_of_equiv_entry hwfF he1 (heq1.trans heq.symm) hk'ne hff hnd', hev1]
  · rw [get_of_equiv_entry hwfM he2 (heq2.trans heq.symm) hk'ne hfm hnd', hev2]

theorem derivativeIsolation_nonempty_witness :
    (((SKM.empty : SKM Nat Nat).set ⟨100, [1, 2]⟩ 7).filter (fun _ _ => true)).get
        ⟨200, [2, 1]⟩ = some 7 ∧
      (((SKM.empty : SKM Nat Nat).set ⟨100, [1, 2]⟩ 7).mapOver (fun v _ => v + 1)).get
        ⟨200, [2, 1]⟩ = some 8 ∧
      Wf (((SKM.empty : SKM Nat Nat).set ⟨100, [1, 2]⟩ 7).filter (fun _ _ => true)) ∧
      Wf (((SKM.empty : SKM Nat Nat).set ⟨100, [1, 2]⟩ 7).mapOver (fun v _ => v + 1)) :=
  @derivativeIsolation_nonempty Nat Nat Nat _
    ((SKM.empty : SKM Nat Nat).set ⟨100, [1, 2]⟩ 7) (fun _ _ => true) (fun v _ => v + 1)
    (⟨1, [1, 2]⟩, 7) ⟨200, [2, 1]⟩
    (by decide) (by decide) (by decide) (by decide) (by decide) (by decide) (by decide)
    (by decide)

/-- C8: iteration yields fresh key copies: in a well-formed container, every
key yielded by `keys()` or `entries()` carries exactly the element list of a
stored canonical key but is a distinct object from every internal canonical
key (`FreshKey`); since the container references its keys only through its own
objects, mutating a yielded copy cannot change `size`, the index, or any
`get`/`has` result. -/
theorem iterationYieldsFreshCopies {C : SKM α β} (hwf : Wf C) :
    (∀ yk ∈ C.keysList, (∃ e ∈ C.entries, yk.elems = e.1.elems) ∧ FreshKey C yk) ∧
      (∀ kv ∈ C.entriesList, (∃ e ∈ C.entries, kv.1.elems = e.1.elems) ∧
        FreshKey C kv.1) := by
  have hmain : ∀ kv ∈ C.entriesList,
      (∃ e ∈ C.entries, kv.1.elems = e.1.elems) ∧ FreshKey C kv.1 := by
    intro kv hkv
    obtain ⟨e, he, hee, _, hid⟩ := freshCopies_mem hkv
    refine ⟨⟨e, he, hee⟩, ?_⟩
    intro f' hf'
    exact Nat.ne_of_lt (Nat.lt_of_lt_of_le (hwf.idsLt f' hf') hid)
  refine ⟨?_, hmain⟩
  intro yk hyk
  obtain ⟨kv, hkv, hkve⟩ := List.mem_map.1 hyk
  rw [← hkve]
  exact hmain kv hkv

theorem iterationYieldsFreshCopies_witness :
    FreshKey ((SKM.empty : SKM Nat Nat).set ⟨100, [1, 2]⟩ 7) ⟨1, [1, 2]⟩ :=
  ((iterationYieldsFreshCopies (by decide)).1 ⟨1, [1, 2]⟩ (by decide)).2

/-- C9: `set` with an empty key always inserts a brand-new entry — `size`
grows by exactly one even when an empty-keyed entry already exists — and such
entries can never be observed or removed through `get`, `has`, or `delete`
with any (caller-supplied) empty key; `clear` empties the container. -/
theorem emptyKeySetInsertsFresh {C : SKM α β} {k : KeyObj α} {v : β}
    (hwf : Wf C) (he : k.elems = []) (hf : FreshKey C k) :
    (C.set k v).size = C.size + 1 ∧
      (∀ k2 : KeyObj α, k2.elems = [] → FreshKey (C.set k v) k2 →
        (C.set k v).get k2 = none ∧ (C.set k v).has k2 = false ∧
          (C.set k v).delete k2 = (false, C.set k v)) ∧
      (C.set k v).clear.entries = [] := by
  have hres : C.getCannonicalKey k = none := getCannonicalKey_empty hf he
  refine ⟨?_, ?_, rfl⟩
  · unfold size
    rw [set_entries_none hwf hres, List.length_append]
    rfl
  · intro k2 he2 hf2
    have hres2 : (C.set k v).getCannonicalKey k2 = none := getCannonicalKey_empty hf2 he2
    refine ⟨?_, ?_, ?_⟩
    · unfold get
      rw [hres2]
    · unfold has
      rw [hres2]
    · unfold delete
      rw [hres2]

theorem emptyKeySetInsertsFresh_witness :
    (((SKM.empty : SKM Nat Nat).set ⟨100, []⟩ 1).set ⟨101, []⟩ 2).size =
        ((SKM.empty : SKM Nat Nat).set ⟨100, []⟩ 1).size + 1 ∧
      (((SKM.empty : SKM Nat Nat).set ⟨100, []⟩ 1).set ⟨101, []⟩ 2).get ⟨102, []⟩ = none :=
  ⟨(emptyKeySetInsertsFresh (by decide) (by decide) (by decide)).1,
    ((emptyKeySetInsertsFresh (by decide) (by decide) (by decide)).2.1 ⟨102, []⟩
      (by decide) (by decide)).1⟩

/-- C10: `reduceRight` returns exactly the same result as `reduce` for every
container, callback, and initial accumulator: both are the same forward left
fold over `entries()`, so `reduceRight` does not process entries
right-to-left. -/
theorem reduceRight_eq_reduce (C : SKM α β) (f : δ → β → KeyObj α → δ)
    (initialValue : δ) : C.reduceRight f initialValue = C.reduce f initialValue := rfl

end SKM
